import Mathlib

/-!
Verification of the radicle-node service core against its specification.

The development shallowly embeds the service state machine of
`src/radicle-node/src/service.rs` (with the `Context::relay` helper of
`src/node/src/service.rs`), the storage fetch/verify pipeline of
`src/radicle/src/storage/git.rs`, and the node-identity string codec of
`src/radicle/src/crypto.rs`.

Opaque identifiers (project ids, node ids, reference names, object ids,
signatures) are embedded as natural numbers; machine integers are `Nat`
with Rust's `saturating_sub` mapped to truncated `Nat` subtraction.
Collections with unique keys (`HashMap`, `BTreeMap`) are embedded as
association lists; fallible Rust calls are embedded as `Except`; a Rust
`.unwrap()` on a fallible call is embedded as a distinguished `panicked`
outcome.  Cryptographic primitives live outside the repository, so
signature creation and verification are oracles carried by an `Env`
record: the embedding records exactly which oracle each source function
consults.
-/

namespace Radicle

/-- Project identifier (`Id`): opaque and content-addressed; embedded as `Nat`. -/
abbrev ProjId := Nat

/-- Node identifier (`NodeId = crypto::PublicKey`) at the service layer: opaque. -/
abbrev NodeId := Nat

/-- Seconds since epoch (`Timestamp = u64`). -/
abbrev Timestamp := Nat

/-- Git object id; `0` plays the role of the zero (absent) oid. -/
abbrev Oid := Nat

/-- A reference name within a remote's subtree, abstracted to an identifier. -/
abbrev RefName := Nat

/-- Peer IP address, abstracted to an identifier. -/
abbrev IpAddr := Nat

/-- A detached signature, abstracted to an identifier. -/
abbrev Sig := Nat

structure SocketAddr where
  ip : IpAddr
  port : Nat
  deriving DecidableEq

/-- Git URL (`git::Url`), with the fields the service constructs and compares. -/
structure Url where
  scheme : String
  host : Option String
  port : Option Nat
  path : String
  deriving DecidableEq

def PROTOCOL_VERSION : Nat := 1

/-- `MAX_TIME_DELTA` (60 minutes) in seconds. -/
def MAX_TIME_DELTA : Nat := 3600

/-- `Timestamp::MAX` (`u64::MAX`). -/
def TIMESTAMP_MAX : Timestamp := 2 ^ 64 - 1

/-- First-match lookup in an association list (`HashMap`/`BTreeMap` get). -/
def lookupA {α β : Type} [DecidableEq α] : List (α × β) → α → Option β
  | [], _ => none
  | (a, b) :: t, k => if a = k then some b else lookupA t k

/-- Replace the value at a key that is present (`get_mut` followed by assignment). -/
def setA {α β : Type} [DecidableEq α] (l : List (α × β)) (k : α) (v : β) : List (α × β) :=
  l.map fun p => if p.1 = k then (k, v) else p

/-- Remove a key (`BTreeMap::remove`); keys of an embedded map are unique. -/
def removeA {α β : Type} [DecidableEq α] (l : List (α × β)) (k : α) : List (α × β) :=
  l.filter fun p => p.1 ≠ k

/-- `HashMap::insert`: replace the entry if present, otherwise add it. -/
def insertRA {α β : Type} [DecidableEq α] (l : List (α × β)) (k : α) (v : β) : List (α × β) :=
  if (lookupA l k).isSome then setA l k v else l ++ [(k, v)]

/-- `HashMap::entry(k).or_insert_with(v0)`: the map with the entry ensured, and its value. -/
def entryOr {α β : Type} [DecidableEq α] (l : List (α × β)) (k : α) (v0 : β) :
    List (α × β) × β :=
  match lookupA l k with
  | some v => (l, v)
  | none => (l ++ [(k, v0)], v0)

/-- `NodeAnnouncement` message body (features, timestamp, alias, addresses). -/
structure NodeAnnouncement where
  features : Nat
  timestamp : Timestamp
  aliasBytes : List Nat
  addresses : List Nat
  deriving DecidableEq

/-- `InventoryAnnouncement` message body. -/
structure InventoryAnnouncement where
  inventory : List ProjId
  timestamp : Timestamp
  deriving DecidableEq

/-- A refs manifest: `refname → oid`. -/
abbrev Refs := List (RefName × Oid)

/-- `RefsAnnouncement` message body. -/
structure RefsAnnouncement where
  id : ProjId
  refs : Refs
  deriving DecidableEq

/-- Modelled from the spec: `ProjectFilter` lives in service/filter.rs, which is not
under src/.  The spec uses it only through membership (`filter.contains(&id)`), so it
is embedded as the list of project ids it contains. -/
abbrev ProjFilter := List ProjId

/-- `Subscribe` message body (filter, since, until). -/
structure SubscribeMsg where
  filter : ProjFilter
  sinceT : Timestamp
  untilT : Timestamp
  deriving DecidableEq

/-- Modelled from the spec: the `Message` enum lives in service/message.rs, which is
not under src/.  The five kinds and their fields follow spec §6 "Message kinds" and
the constructors used in service.rs (`Message::init/node/inventory/subscribe` and the
struct-literal announcement variants). -/
inductive Message where
  | init (id : NodeId) (version : Nat) (addrs : List Nat) (git : Url)
  | nodeAnn (node : NodeId) (message : NodeAnnouncement) (signature : Sig)
  | invAnn (node : NodeId) (message : InventoryAnnouncement) (signature : Sig)
  | refsAnn (node : NodeId) (message : RefsAnnouncement) (signature : Sig)
  | subscribe (sub : SubscribeMsg)
  deriving DecidableEq

/-- Wire envelope: `Envelope { magic, msg }`. -/
structure Envelope where
  magic : Nat
  msg : Message
  deriving DecidableEq

/-- `config::ProjectTracking`: track-all with a block list, or an allow list. -/
inductive ProjectTracking where
  | all (blocked : List ProjId)
  | allowed (projs : List ProjId)
  deriving DecidableEq

/-- Service configuration, with the fields service.rs reads.  `network` is embedded
directly as its magic value (`config.network.magic()`). -/
structure Config where
  network : Nat
  relay : Bool
  projectTracking : ProjectTracking
  gitUrl : Url
  listen : List Nat
  aliasBytes : List Nat
  connect : List SocketAddr
  deriving DecidableEq

/-- `Config::is_tracking` as used by service.rs: blocked-complement in all-mode,
membership in allowed-mode (mirrors the `tracked()` selection in service.rs). -/
def Config.isTracking (c : Config) (id : ProjId) : Bool :=
  match c.projectTracking with
  | .all blocked => !(blocked.contains id)
  | .allowed projs => projs.contains id

/-- Modelled from the spec: `Config::track` lives in service/config.rs, which is not
under src/.  Spec §4.1: "`Track(project_id, reply)` — update tracking policy; reply
`true` iff the policy changed."  In allowed-mode tracking adds the project to the
allow list; in all-mode it removes it from the block list; the boolean reports
whether the policy changed. -/
def Config.track (c : Config) (id : ProjId) : Config × Bool :=
  match c.projectTracking with
  | .allowed projs =>
    if projs.contains id then (c, false)
    else ({ c with projectTracking := .allowed (projs ++ [id]) }, true)
  | .all blocked =>
    if blocked.contains id then
      ({ c with projectTracking := .all (blocked.filter (· ≠ id)) }, true)
    else (c, false)

/-- Modelled from the spec: `Config::is_persistent` lives in service/config.rs, not
under src/; a peer address is persistent when it is one of the configured connect
addresses. -/
def Config.isPersistent (c : Config) (a : SocketAddr) : Bool :=
  c.connect.contains a

/-- `Config::filter` (visible in src/node/src/service.rs `Context::filter`):
the default (empty) filter in all-mode, the allowed ids otherwise. -/
def Config.filterOf (c : Config) : ProjFilter :=
  match c.projectTracking with
  | .all _ => []
  | .allowed ids => ids

inductive Link where
  | inbound
  | outbound
  deriving DecidableEq

/-- Modelled from the spec: `SessionState` lives in service/peer.rs, not under src/.
Spec §3 Session: `Initial`, `Negotiated { id, since, addrs, git_url }`,
`Disconnected { since }`. -/
inductive SessionState where
  | initial
  | negotiated (id : NodeId) (sinceT : Nat) (addrs : List Nat) (git : Url)
  | disconnected (sinceT : Nat)
  deriving DecidableEq

/-- Modelled from the spec: the `Session` record of service/peer.rs (not under src/):
remote socket address, link, persistence flag, attempt counter, optional subscribe
filter, and a `SessionState` (spec §3). -/
structure Session where
  addr : SocketAddr
  link : Link
  persistent : Bool
  attempts : Nat
  subscribe : Option SubscribeMsg
  state : SessionState
  deriving DecidableEq

/-- Modelled from the spec: `Session::new` — a fresh session is in `Initial` state
with no subscribe filter and no attempts. -/
def Session.new (addr : SocketAddr) (link : Link) (persistent : Bool) : Session :=
  ⟨addr, link, persistent, 0, none, .initial⟩

/-- `Session::is_negotiated`. -/
def Session.isNegotiated (s : Session) : Bool :=
  match s.state with
  | .negotiated _ _ _ _ => true
  | _ => false

/-- Modelled from the spec: `Session::connected(link)` of service/peer.rs (not under
src/) records the link of the established connection. -/
def Session.onConnected (s : Session) (link : Link) : Session :=
  { s with link := link }

/-- Per-node-id peer record: `last_message` timestamp (`Peer` in service.rs). -/
structure Peer where
  last_message : Timestamp
  deriving DecidableEq

/-- `Peer::default()`. -/
def Peer.default : Peer := ⟨0⟩

/-- `storage::RefUpdate`. -/
inductive RefUpdate where
  | created (name : RefName) (oid : Oid)
  | updated (name : RefName) (old : Oid) (new : Oid)
  | deleted (name : RefName) (oid : Oid)
  deriving DecidableEq

/-- Modelled from the spec: `RefUpdate::from(name, old, new)` lives in storage
(mod.rs), not under src/.  Spec §4.2: the update kind is derived from the
`(old_oid, new_oid)` pair — created when the old oid is zero, deleted when the new
oid is zero, updated otherwise. -/
def RefUpdate.from (name : RefName) (old : Oid) (new : Oid) : RefUpdate :=
  if old = 0 then .created name new
  else if new = 0 then .deleted name old
  else .updated name old new

/-- Service `Event`. -/
inductive Event where
  | refsFetched (fromUrl : Url) (project : ProjId) (updated : List RefUpdate)
  deriving DecidableEq

/-- `peer::SessionError` variants used by service.rs. -/
inductive SessionError where
  | notFound (ip : IpAddr)
  | wrongMagic (m : Nat)
  | wrongVersion (v : Nat)
  | invalidTimestamp (t : Timestamp)
  | misbehavior
  deriving DecidableEq

inductive DisconnectReason where
  | user
  | error (e : SessionError)
  deriving DecidableEq

/-- The `Io` directives the core emits (spec §4.1 Outputs). -/
inductive Directive where
  | write (addr : SocketAddr) (msgs : List Envelope)
  | connect (addr : SocketAddr)
  | disconnect (addr : SocketAddr) (reason : DisconnectReason)
  | wakeup (d : Nat)
  | event (e : Event)
  deriving DecidableEq

/-- The storage capability as consumed by the service (spec §1: `inventory`,
`repository`, `fetch`).  Each operation's outcome is part of the model state;
errors are abstract codes. -/
structure StorageModel where
  inventory : Except Nat (List ProjId)
  repoOpen : ProjId → Except Nat Unit
  fetchResult : ProjId → Url → Except Nat (List RefUpdate)

/-- The service's external collaborators: storage outcomes and the cryptographic
signer/verifier oracles (the crypto itself is outside the service layer).  The
embedding records exactly which oracle each source function consults. -/
structure Env where
  storage : StorageModel
  signerPk : NodeId
  signNode : NodeAnnouncement → Sig
  signInv : InventoryAnnouncement → Sig
  signRefs : RefsAnnouncement → Sig
  verifyNode : NodeId → NodeAnnouncement → Sig → Bool
  verifyInv : NodeId → InventoryAnnouncement → Sig → Bool
  verifyRefs : NodeId → RefsAnnouncement → Sig → Bool

/-- The routing table `Id → set<NodeId>` as an association list of lists. -/
abbrev Routing := List (ProjId × List NodeId)

/-- The session table keyed by IP. -/
abbrev Sessions := List (IpAddr × Session)

/-- The mutable state of `Service` that the embedded operations touch. -/
structure ServiceState where
  config : Config
  routing : Routing
  sessions : Sessions
  peers : List (NodeId × Peer)
  clock : Nat
  outOfSync : Bool
  deriving DecidableEq

/-- `gossip::node`: the node announcement of the handshake bundle. -/
def gossipNode (timestamp : Timestamp) (cfg : Config) : NodeAnnouncement :=
  ⟨0, timestamp, cfg.aliasBytes, []⟩

/-- `gossip::inventory`. -/
def gossipInventory (timestamp : Timestamp) (inv : List ProjId) : InventoryAnnouncement :=
  ⟨inv, timestamp⟩

/-- `gossip::handshake`: the four-message bundle, in order —
`Initialize`, signed `NodeAnnouncement`, signed `InventoryAnnouncement`, `Subscribe`. -/
def handshakeMsgs (env : Env) (cfg : Config) (timestamp : Timestamp)
    (inv : List ProjId) : List Message :=
  [ .init env.signerPk PROTOCOL_VERSION cfg.listen cfg.gitUrl,
    .nodeAnn env.signerPk (gossipNode timestamp cfg) (env.signNode (gossipNode timestamp cfg)),
    .invAnn env.signerPk (gossipInventory timestamp inv)
      (env.signInv (gossipInventory timestamp inv)),
    .subscribe ⟨cfg.filterOf, timestamp, TIMESTAMP_MAX⟩ ]

/-- `Context::write_all` envelope wrapping: each message wrapped with the
configured network's magic. -/
def mkEnvelopes (cfg : Config) (msgs : List Message) : List Envelope :=
  msgs.map fun m => ⟨cfg.network, m⟩

/-- Insert a node into `routing[p]` (`entry(p).or_insert_with(empty).insert(n)`);
returns the new table and whether the node was newly inserted. -/
def routingInsert (routing : Routing) (p : ProjId) (n : NodeId) : Routing × Bool :=
  match lookupA routing p with
  | some s => if s.contains n then (routing, false) else (setA routing p (s ++ [n]), true)
  | none => (routing ++ [(p, [n])], true)

/-- Outcome of a call that may hit a Rust `.unwrap()` on an `Err`. -/
inductive ProcOut where
  | ok (st : ServiceState)
  | panicked
  deriving DecidableEq

/-- `process_inventory`: for each announced project insert the announcing node into
the routing table; on a fresh association with a tracked project, fetch from the
peer's git url — the source unwraps the fetch result (`.unwrap()`), so a fetch
error is a panic. -/
def processInventory (env : Env) (st : ServiceState) (inventory : List ProjId)
    (fromN : NodeId) (remote : Url) : ProcOut :=
  match inventory with
  | [] => .ok st
  | p :: rest =>
    if (routingInsert st.routing p fromN).2 && st.config.isTracking p then
      match env.storage.fetchResult p remote with
      | .ok _ =>
        processInventory env { st with routing := (routingInsert st.routing p fromN).1 }
          rest fromN remote
      | .error _ => .panicked
    else
      processInventory env { st with routing := (routingInsert st.routing p fromN).1 }
        rest fromN remote

/-- Result of `handle_message`: `Ok(relay)` with the state and emitted directives,
a `SessionError`, or a panic from an `.unwrap()`. -/
inductive HandleOut where
  | ok (st : ServiceState) (io : List Directive) (relay : Option Message)
  | err (st : ServiceState) (e : SessionError)
  | panicked
  deriving DecidableEq

/-- Transition the session at `ip` to `Negotiated` (the `Initial → Negotiated` step
of `handle_message`). -/
def negotiateSession (st : ServiceState) (ip : IpAddr) (peer : Session) (nid : NodeId)
    (addrs : List Nat) (git : Url) : ServiceState :=
  { st with sessions := setA st.sessions ip { peer with state := .negotiated nid st.clock addrs git } }

/-- `Service::handle_message`, dispatching on `(session state, message)`.

Notable source behaviours mirrored exactly: the envelope magic is checked first;
an `InventoryAnnouncement` ensures a default `peers[node]` entry before any check,
compares `message.timestamp.saturating_sub(now)` (only future skew) against
`MAX_TIME_DELTA`, and never consults the signature-verification oracle; the
`RefsAnnouncement` and `NodeAnnouncement` handlers verify their signatures; the
fetches triggered by announcements unwrap their results. -/
def handleMessage (env : Env) (st : ServiceState) (remote : SocketAddr)
    (envl : Envelope) : HandleOut :=
  match lookupA st.sessions remote.ip with
  | none => .err st (.notFound remote.ip)
  | some peer =>
    if envl.magic ≠ st.config.network then .err st (.wrongMagic envl.magic)
    else
      match peer.state, envl.msg with
      | .initial, .init nid version addrs git =>
        if version ≠ PROTOCOL_VERSION then .err st (.wrongVersion version)
        else if peer.link = .inbound then
          match env.storage.inventory with
          | .error _ => .panicked
          | .ok inv =>
            .ok (negotiateSession st remote.ip peer nid addrs git)
              [.write peer.addr (mkEnvelopes st.config (handshakeMsgs env st.config st.clock inv))]
              none
        else .ok (negotiateSession st remote.ip peer nid addrs git) [] none
      | .initial, _ => .err st .misbehavior
      | .negotiated _ _ _ git, .invAnn node message signature =>
        if message.timestamp - st.clock > MAX_TIME_DELTA then
          .err { st with peers := (entryOr st.peers node Peer.default).1 }
            (.invalidTimestamp message.timestamp)
        else if message.timestamp > (entryOr st.peers node Peer.default).2.last_message then
          match processInventory env
              { st with peers := setA (entryOr st.peers node Peer.default).1 node ⟨message.timestamp⟩ }
              message.inventory node git with
          | .panicked => .panicked
          | .ok st3 =>
            if st.config.relay then .ok st3 [] (some (.invAnn node message signature))
            else .ok st3 [] none
        else .ok { st with peers := (entryOr st.peers node Peer.default).1 } [] none
      | .negotiated _ _ _ git, .refsAnn node message signature =>
        if env.verifyRefs node message signature then
          if st.config.isTracking message.id then
            match env.storage.fetchResult message.id git with
            | .error _ => .panicked
            | .ok updated =>
              if updated.isEmpty then
                .ok st [.event (.refsFetched git message.id updated)] none
              else
                .ok st [.event (.refsFetched git message.id updated)]
                  (some (.refsAnn node message signature))
          else .ok st [] none
        else .err st .misbehavior
      | .negotiated _ _ _ _, .nodeAnn node message signature =>
        if env.verifyNode node message signature then .ok st [] none
        else .err st .misbehavior
      | .negotiated _ _ _ _, .subscribe sub =>
        .ok { st with sessions := setA st.sessions remote.ip { peer with subscribe := some sub } }
          [] none
      | .negotiated _ _ _ _, .init _ _ _ _ => .err st .misbehavior
      | .disconnected _, _ => .ok st [] none

/-- `Service::connected`: outbound connections send the handshake bundle at once
(when the session created by `attempted` exists; `gossip::handshake` unwraps
`storage.inventory()`); inbound connections only create an `Initial` session. -/
def connected (env : Env) (st : ServiceState) (addr : SocketAddr) (link : Link) :
    Option (ServiceState × List Directive) :=
  if link = .outbound then
    match lookupA st.sessions addr.ip with
    | some peer =>
      match env.storage.inventory with
      | .error _ => none
      | .ok inv =>
        some ({ st with sessions := setA st.sessions addr.ip (peer.onConnected link) },
          [.write addr (mkEnvelopes st.config (handshakeMsgs env st.config st.clock inv))])
    | none => some (st, [])
  else
    let s := Session.new addr .inbound (st.config.isPersistent addr)
    some ({ st with sessions := insertRA st.sessions addr.ip s }, [])

/-- `Context::relay` target selection: a `RefsAnnouncement` goes only to peers whose
stored subscribe filter contains the announced project; peers without a stored
filter receive nothing; other messages go to every given peer. -/
def relayTargets (msg : Message) (sess : List Session) : List Session :=
  match msg with
  | .refsAnn _ m _ =>
    sess.filter fun p =>
      match p.subscribe with
      | some sub => sub.filter.contains m.id
      | none => false
  | _ => sess

/-- `Context::relay` followed by `broadcast`/`write`: one `Io::Write` per selected
peer. -/
def relayDirectives (cfg : Config) (msg : Message) (sess : List Session) : List Directive :=
  (relayTargets msg sess).map fun p => .write p.addr [⟨cfg.network, msg⟩]

/-- `Service::received_message`: dispatch through `handle_message`; relay a returned
message to negotiated peers other than the sender; disconnect on a session error
other than `NotFound` (which is only logged).  `none` is a panic. -/
def receivedMessage (env : Env) (st : ServiceState) (addr : SocketAddr)
    (envl : Envelope) : Option (ServiceState × List Directive) :=
  match handleMessage env st addr envl with
  | .panicked => none
  | .ok st' io relayMsg =>
    match relayMsg with
    | none => some (st', io)
    | some msg =>
      let negotiated :=
        (st'.sessions.filter fun q => q.1 != addr.ip && q.2.isNegotiated).map Prod.snd
      some (st', io ++ relayDirectives st'.config msg negotiated)
  | .err st' e =>
    match e with
    | .notFound _ => some (st', [])
    | _ => some (st', [.disconnect addr (.error e)])

/-- `Service::track`: store `config.track`'s outcome in `out_of_sync` and return it. -/
def ServiceState.track (st : ServiceState) (id : ProjId) : ServiceState × Bool :=
  let cb := st.config.track id
  ({ st with config := cb.1, outOfSync := cb.2 }, cb.2)

/-- `Sessions::by_id`: the first session negotiated with the given node id. -/
def sessionById (sessions : Sessions) (n : NodeId) : Option Session :=
  (sessions.map Prod.snd).find? fun s =>
    match s.state with
    | .negotiated i _ _ _ => i = n
    | _ => false

/-- `Service::seeds`: the routing entries of the project resolved to negotiated
sessions. -/
def seedsOf (st : ServiceState) (id : ProjId) : List (NodeId × Session) :=
  ((lookupA st.routing id).getD []).filterMap fun n =>
    (sessionById st.sessions n).map fun s => (n, s)

/-- The git URL the fetch command builds for a seed:
`git://<ip>:<port>/<project-id>`. -/
def seedUrl (id : ProjId) (a : SocketAddr) : Url :=
  ⟨"git", some (toString a.ip), some a.port, "/" ++ toString id⟩

/-- `FetchResult`: one per seed attempted. -/
inductive FetchResultM where
  | fetched (fromA : SocketAddr) (updated : List RefUpdate)
  | error (fromA : SocketAddr) (e : Nat)
  deriving DecidableEq

/-- `FetchLookup`: the single reply of the `Fetch` command. -/
inductive FetchLookupM where
  | found (seeds : List SocketAddr) (results : List FetchResultM)
  | notFound
  | notTracking
  | error (e : Nat)
  deriving DecidableEq

/-- The `Command::Fetch` branch of `Service::command`: the one `FetchLookup` value
sent on the reply channel, with the per-seed results stream embedded as a list. -/
def commandFetch (env : Env) (st : ServiceState) (id : ProjId) : FetchLookupM :=
  if !st.config.isTracking id then .notTracking
  else
    let seeds := seedsOf st id
    if seeds.isEmpty then .notFound
    else
      match env.storage.repoOpen id with
      | .error e => .error e
      | .ok _ =>
        .found (seeds.map fun p => p.2.addr)
          (seeds.map fun p =>
            match env.storage.fetchResult id (seedUrl id p.2.addr) with
            | .ok updated => .fetched p.2.addr updated
            | .error e => .error p.2.addr e)

/-! ## Repository model: `Repository::verify` and `Repository::fetch` -/

/-- The well-known signature reference name `radicle/signature`, as an abstract
reference-name identifier. -/
def SIGNATURE_REF : RefName := 0

/-- All references of a repository, already split as
`refs/remotes/<remote>/<refname> → oid` (the `git::parse_ref` step). -/
abbrev RepoRefs := List (NodeId × RefName × Oid)

/-- A remote's signed refs manifest (`SignedRefs`, loaded from the signature ref). -/
abbrev SignedMap := List (RefName × Oid)

/-- A repository as `Repository::verify` consumes it: its parsed references, the
signed map each remote's signature reference yields (`remotes()`), and the outcome
of each remote's identity-history check (`identity(remote).verified(id)`). -/
structure Repo where
  refs : RepoRefs
  signed : List (NodeId × SignedMap)
  idOk : NodeId → Bool

/-- `storage::git::VerifyError` variants. -/
inductive VerifyError where
  | invalidRemote (r : NodeId)
  | invalidRefTarget (r : NodeId) (n : RefName) (o : Oid)
  | unknownRef (r : NodeId) (n : RefName)
  | missingRef (r : NodeId) (n : RefName)
  | invalidIdentity (r : NodeId)
  deriving DecidableEq

/-- The reference-walk loop of `Repository::verify`: skip signature refs; every
other ref must find its remote (`InvalidRemote`), its name in the remote's signed
map (`UnknownRef`), and the signed oid must match (`InvalidRefTarget`); a matched
entry is removed from the map.  Returns the leftover maps. -/
def verifyRefsLoop : RepoRefs → List (NodeId × SignedMap) →
    Except VerifyError (List (NodeId × SignedMap))
  | [], remotes => .ok remotes
  | (r, n, o) :: rest, remotes =>
    if n = SIGNATURE_REF then verifyRefsLoop rest remotes
    else
      match lookupA remotes r with
      | none => .error (.invalidRemote r)
      | some m =>
        match lookupA m n with
        | none => .error (.unknownRef r n)
        | some so =>
          if o = so then verifyRefsLoop rest (setA remotes r (removeA m n))
          else .error (.invalidRefTarget r n o)

/-- The leftover loop of `Repository::verify`: any entry still in a signed map was
signed but has no repository reference (`MissingRef`); then the remote's identity
history must verify. -/
def verifyRemotesLoop (idOk : NodeId → Bool) :
    List (NodeId × SignedMap) → Except VerifyError Unit
  | [] => .ok ()
  | (r, m) :: rest =>
    match m with
    | (n, _) :: _ => .error (.missingRef r n)
    | [] => if idOk r then verifyRemotesLoop idOk rest else .error (.invalidIdentity r)

/-- `Repository::verify`. -/
def Repo.verify (repo : Repo) : Except VerifyError Unit :=
  match verifyRefsLoop repo.refs repo.signed with
  | .error e => .error e
  | .ok rem => verifyRemotesLoop repo.idOk rem

/-- `FetchError` as `Repository::fetch` produces it: a git-level error or a
verification error on the staging copy. -/
inductive FetchErrM where
  | git (code : Nat)
  | verify (e : VerifyError)
  deriving DecidableEq

/-- Whether a reference with the same full name (remote, refname) is present. -/
def hasRefKey (refs : RepoRefs) (r : NodeId) (n : RefName) : Bool :=
  refs.any fun q => q.1 == r && q.2.1 == n

/-- The fetch of `refs/remotes/*:refs/remotes/*` with pruning off: existing refs
are updated in place, new refs are added, and nothing is deleted. -/
def mergeNoPrune (base news : RepoRefs) : RepoRefs :=
  (base.map fun p =>
    match news.find? (fun q => q.1 == p.1 && q.2.1 == p.2.1) with
    | some q => q
    | none => p)
  ++ news.filter fun q => !hasRefKey base q.1 q.2.1

/-- The signed maps after a no-prune fetch: fetched manifests override, the rest
survive. -/
def mergeSigned (base news : List (NodeId × SignedMap)) : List (NodeId × SignedMap) :=
  (base.map fun p =>
    match lookupA news p.1 with
    | some m => (p.1, m)
    | none => p)
  ++ news.filter fun q => (lookupA base q.1).isNone

/-- The staging copy: a local clone of the canonical repository into which the
remote was fetched with pruning off. -/
def mkStaging (canonical remote : Repo) : Repo :=
  { refs := mergeNoPrune canonical.refs remote.refs,
    signed := mergeSigned canonical.signed remote.signed,
    idOk := remote.idOk }

/-- The oid a reference set assigns to a full name, with `0` for absent (the zero
oid the update callback reports). -/
def oidAt (refs : RepoRefs) (r : NodeId) (n : RefName) : Oid :=
  match refs.find? (fun p => p.1 == r && p.2.1 == n) with
  | some p => p.2.2
  | none => 0

/-- An injective encoding of the full reference name `refs/remotes/<r>/<n>`. -/
def refFullName (r : NodeId) (n : RefName) : RefName :=
  Nat.pair r n

/-- The `update_tips` record of the prune-on fetch from staging into canonical: a
`RefUpdate` for every tip that moved, plus a deletion for every pruned ref. -/
def fetchPruneUpdates (canonical staging : RepoRefs) : List RefUpdate :=
  ((staging.filter fun q => oidAt canonical q.1 q.2.1 ≠ q.2.2).map fun q =>
    RefUpdate.from (refFullName q.1 q.2.1) (oidAt canonical q.1 q.2.1) q.2.2)
  ++ ((canonical.filter fun p => !hasRefKey staging p.1 p.2.1).map fun p =>
    RefUpdate.from (refFullName p.1 p.2.1) p.2.2 0)

/-- `Repository::fetch` (the staging-with-verify pipeline): clone the canonical
repository, fetch the remote into the staging copy with pruning off, verify the
staging copy; on success fetch from staging into canonical with pruning on and
report the updates; on verification failure return the error — the canonical
repository is not touched.  The result pairs the canonical repository after the
call with the call's return value. -/
def Repo.fetch (canonical remote : Repo) : Repo × Except FetchErrM (List RefUpdate) :=
  let staging := mkStaging canonical remote
  match staging.verify with
  | .error e => (canonical, .error (.verify e))
  | .ok _ => (staging, .ok (fetchPruneUpdates canonical.refs staging.refs))

/-! ## Node identity string form: base58-btc multibase over the 32 raw key bytes -/

/-- The base58-btc alphabet. -/
def base58Chars : List Char :=
  ['1', '2', '3', '4', '5', '6', '7', '8', '9',
   'A', 'B', 'C', 'D', 'E', 'F', 'G', 'H', 'J', 'K', 'L', 'M', 'N',
   'P', 'Q', 'R', 'S', 'T', 'U', 'V', 'W', 'X', 'Y', 'Z',
   'a', 'b', 'c', 'd', 'e', 'f', 'g', 'h', 'i', 'j', 'k', 'm', 'n',
   'o', 'p', 'q', 'r', 's', 't', 'u', 'v', 'w', 'x', 'y', 'z']

/-- The alphabet character of a base58 digit. -/
def b58char (d : Nat) : Char :=
  base58Chars.getD d ' '

/-- The base58 digit of a character, if it belongs to the alphabet. -/
def b58val (c : Char) : Option Nat :=
  let i := base58Chars.indexOf c
  if i < 58 then some i else none

/-- Little-endian base-`b` digits of `n`, with explicit fuel so that the function
is structurally recursive (and kernel-evaluable). -/
def toDigitsF (b : Nat) : Nat → Nat → List Nat
  | 0, _ => []
  | _ + 1, 0 => []
  | f + 1, n + 1 => ((n + 1) % b) :: toDigitsF b f ((n + 1) / b)

/-- Little-endian base-`b` digits of `n` (`n` itself is always enough fuel). -/
def natDigits (b n : Nat) : List Nat :=
  toDigitsF b n n

/-- Value of a little-endian digit list in base `b`. -/
def ofDigitsN (b : Nat) : List Nat → Nat
  | [] => 0
  | d :: t => d + b * ofDigitsN b t

/-- Number of leading zeros of a byte (or digit) list. -/
def countLeadingZeros : List Nat → Nat
  | [] => 0
  | x :: t => if x = 0 then countLeadingZeros t + 1 else 0

/-- The list after its leading zeros. -/
def dropZeros : List Nat → List Nat
  | [] => []
  | x :: t => if x = 0 then dropZeros t else x :: t

/-- Modelled from the spec: `multibase::encode(Base58Btc, bytes)` is an external
crate; the spec fixes the codec as "base58-btc multibase over the 32-byte public
key".  Base58-btc: one `'1'` per leading zero byte, then the base-58 digits
(most significant first) of the big-endian value of the bytes; multibase
prefixes `'z'`. -/
def multibaseEncode (bytes : List Nat) : List Char :=
  'z' :: (List.replicate (countLeadingZeros bytes) '1'
    ++ (natDigits 58 (ofDigitsN 256 bytes.reverse)).reverse.map b58char)

/-- `PublicKey::to_human` over the key's 32 raw bytes. -/
def PublicKey.toHuman (k : List Nat) : String :=
  String.mk (multibaseEncode k)

/-- Decode every character through the base58 alphabet, failing on a foreign
character. -/
def b58vals : List Char → Option (List Nat)
  | [] => some []
  | c :: t =>
    match b58val c, b58vals t with
    | some v, some vs => some (v :: vs)
    | _, _ => none

/-- Modelled from the spec: `multibase::decode` is an external crate; the base58btc
branch (prefix `'z'`) decodes one leading zero byte per leading `'1'` and the
big-endian bytes of the base-58 value of the digit string. -/
def multibaseDecode : List Char → Option (List Nat)
  | [] => none
  | c :: rest =>
    if c = 'z' then
      match b58vals rest with
      | none => none
      | some vals =>
        some (List.replicate (countLeadingZeros vals) 0
          ++ (natDigits 256 (ofDigitsN 58 vals.reverse)).reverse)
    else none

inductive PublicKeyError where
  | invalidLength (n : Nat)
  | multibase
  deriving DecidableEq

/-- `PublicKey::from_str`: multibase-decode, then require exactly 32 bytes
(`ed25519::PublicKey::new` itself cannot fail). -/
def PublicKey.fromStr (s : String) : Except PublicKeyError (List Nat) :=
  match multibaseDecode s.data with
  | none => .error .multibase
  | some bytes =>
    if bytes.length = 32 then .ok bytes else .error (.invalidLength bytes.length)

/-! ## Concrete fixtures used by closed theorems and witnesses -/

/-- A throwaway git url. -/
def testUrl : Url := ⟨"file", none, none, "/tmp"⟩

/-- An environment with uniform oracle outcomes: every signature verifies according
to `verifyOk`, every storage fetch returns `fetchRes`. -/
def mkTestEnv (verifyOk : Bool) (fetchRes : Except Nat (List RefUpdate)) : Env where
  storage :=
    { inventory := .ok []
      repoOpen := fun _ => .ok ()
      fetchResult := fun _ _ => fetchRes }
  signerPk := 100
  signNode := fun _ => 0
  signInv := fun _ => 0
  signRefs := fun _ => 0
  verifyNode := fun _ _ _ => verifyOk
  verifyInv := fun _ _ _ => verifyOk
  verifyRefs := fun _ _ _ => verifyOk

/-- A configuration on network magic 17 with an allow-list tracking policy. -/
def mkTestConfig (relay : Bool) (tracked : List ProjId) : Config :=
  ⟨17, relay, .allowed tracked, testUrl, [], [], []⟩

/-- A session at `1:10` negotiated with node `nid`. -/
def negSession (nid : NodeId) : Session :=
  ⟨⟨1, 10⟩, .inbound, false, 0, none, .negotiated nid 0 [] testUrl⟩

/-- A service state with the given configuration, sessions and clock. -/
def mkTestState (cfg : Config) (sessions : Sessions) (clock : Nat) : ServiceState :=
  ⟨cfg, [], sessions, [], clock, false⟩

def c1State : ServiceState := mkTestState (mkTestConfig false []) [(1, negSession 7)] 0

/-- C1: the claim requires that a node enters `routing[P]` only via an
`InventoryAnnouncement` whose signature was checked as valid.  The code contradicts
it: in an environment whose inventory-signature oracle rejects every signature
(first conjunct), `handle_message` still accepts an `InventoryAnnouncement` claiming
node 9 — `handle_message` never consults the inventory verification oracle — and
inserts node 9 for project 5 into the routing table (the announcement is even
delivered on a session negotiated with a different node, 7). -/
theorem routing_insert_without_signature_check :
    (∀ n m s, (mkTestEnv false (.ok [])).verifyInv n m s = false) ∧
    handleMessage (mkTestEnv false (.ok [])) c1State ⟨1, 10⟩ ⟨17, .invAnn 9 ⟨[5], 1⟩ 0⟩ =
      .ok { c1State with routing := [(5, [9])], peers := [(9, ⟨1⟩)] } [] none ∧
    lookupA [(5, [9])] 5 = some [9] :=
  ⟨fun _ _ _ => rfl, rfl, rfl⟩

def c8State : ServiceState := mkTestState (mkTestConfig false [5]) [(1, negSession 7)] 0

/-- C8: the claim says storage/fetch errors raised while processing announcements
are recovered locally (at most logged, dispatch not aborted).  The code contradicts
it: with project 5 tracked, a failing storage fetch makes both the
`process_inventory` path and the tracked-`RefsAnnouncement` path panic on
`.unwrap()` (first and third conjuncts), while the identical dispatches succeed
when the fetch succeeds (second conjunct) — so it is precisely the storage error
that aborts the dispatch. -/
theorem announcement_fetch_error_panics :
    handleMessage (mkTestEnv true (.error 0)) c8State ⟨1, 10⟩ ⟨17, .invAnn 9 ⟨[5], 1⟩ 0⟩ =
      .panicked ∧
    handleMessage (mkTestEnv true (.ok [])) c8State ⟨1, 10⟩ ⟨17, .invAnn 9 ⟨[5], 1⟩ 0⟩ =
      .ok { c8State with routing := [(5, [9])], peers := [(9, ⟨1⟩)] } [] none ∧
    handleMessage (mkTestEnv true (.error 0)) c8State ⟨1, 10⟩ ⟨17, .refsAnn 7 ⟨5, []⟩ 0⟩ =
      .panicked :=
  ⟨rfl, rfl, rfl⟩

def c4State : ServiceState := mkTestState (mkTestConfig false []) [(1, negSession 7)] 10000

/-- C4 (counterexample): the claim rejects an `InventoryAnnouncement` with
`InvalidTimestamp` whenever `|timestamp − now| > MAX_TIME_DELTA`.  At
`timestamp = 1`, `now = 10000` the absolute skew (9999) exceeds `MAX_TIME_DELTA`,
yet the code — which compares only `timestamp.saturating_sub(now)` — accepts and
fully processes the message. -/
theorem timestamp_check_not_absolute :
    max 1 c4State.clock - min 1 c4State.clock > MAX_TIME_DELTA ∧
    handleMessage (mkTestEnv true (.ok [])) c4State ⟨1, 10⟩ ⟨17, .invAnn 9 ⟨[5], 1⟩ 0⟩ =
      .ok { c4State with routing := [(5, [9])], peers := [(9, ⟨1⟩)] } [] none :=
  ⟨by decide, rfl⟩

/-- C4 (amended): on a negotiated session, an `InventoryAnnouncement` is rejected
with `InvalidTimestamp` when `timestamp − now` (saturating subtraction, i.e. only
future skew) exceeds `MAX_TIME_DELTA`; it is dropped silently (`Ok(None)`, the only
state change being the ensured default `peers[node]` entry) when the timestamp is
not newer than `peers[node].last_message`; otherwise `last_message` is updated to
the message timestamp, `process_inventory` runs, and the message is returned for
relay exactly when `config.relay` is set. -/
theorem inv_announcement_dispatch (env : Env) (st : ServiceState) (remote : SocketAddr)
    (peer : Session) (nid : NodeId) (sinceT : Nat) (saddrs : List Nat) (git : Url)
    (node : NodeId) (message : InventoryAnnouncement) (signature : Sig)
    (hs : lookupA st.sessions remote.ip = some peer)
    (hst : peer.state = .negotiated nid sinceT saddrs git) :
    (message.timestamp - st.clock > MAX_TIME_DELTA →
      handleMessage env st remote ⟨st.config.network, .invAnn node message signature⟩ =
        .err { st with peers := (entryOr st.peers node Peer.default).1 }
          (.invalidTimestamp message.timestamp)) ∧
    (message.timestamp - st.clock ≤ MAX_TIME_DELTA →
      message.timestamp ≤ (entryOr st.peers node Peer.default).2.last_message →
      handleMessage env st remote ⟨st.config.network, .invAnn node message signature⟩ =
        .ok { st with peers := (entryOr st.peers node Peer.default).1 } [] none) ∧
    (∀ st3, message.timestamp - st.clock ≤ MAX_TIME_DELTA →
      message.timestamp > (entryOr st.peers node Peer.default).2.last_message →
      processInventory env
        { st with peers := setA (entryOr st.peers node Peer.default).1 node ⟨message.timestamp⟩ }
        message.inventory node git = .ok st3 →
      handleMessage env st remote ⟨st.config.network, .invAnn node message signature⟩ =
        .ok st3 [] (if st.config.relay then some (.invAnn node message signature) else none)) := by
  unfold handleMessage
  rw [hs]
  simp only [hst, ne_eq, not_true_eq_false, if_false, ite_not]
  refine ⟨?_, ?_, ?_⟩
  · intro hgt
    rw [if_pos hgt]
  · intro hle hstale
    rw [if_neg (not_lt.mpr hle), if_neg (not_lt.mpr hstale)]
  · intro st3 hle hfresh hpi
    rw [if_neg (not_lt.mpr hle), if_pos hfresh, hpi]
    cases hr : st.config.relay <;> simp

def c4wState : ServiceState := mkTestState (mkTestConfig false []) [(1, negSession 7)] 0

/-- Witness for `inv_announcement_dispatch` at a concrete fresh announcement. -/
theorem inv_announcement_dispatch_witness :
    handleMessage (mkTestEnv true (.ok [])) c4wState ⟨1, 10⟩ ⟨17, .invAnn 9 ⟨[5], 1⟩ 0⟩ =
      .ok { c4wState with routing := [(5, [9])], peers := [(9, ⟨1⟩)] } [] none := by
  have h := inv_announcement_dispatch (mkTestEnv true (.ok [])) c4wState ⟨1, 10⟩
    (negSession 7) 7 0 [] testUrl 9 ⟨[5], 1⟩ 0 rfl rfl
  have h3 := h.2.2 { c4wState with routing := [(5, [9])], peers := [(9, ⟨1⟩)] }
    (by decide) (by decide) rfl
  simpa using h3

/-- C10: `Service::track` stores exactly the boolean returned by `config.track` in
`out_of_sync` and returns it; in particular when the project is already tracked
(allow-list already contains it, policy unchanged) the call returns `false` and
resets `out_of_sync` to `false`, whatever its previous value was. -/
theorem track_sets_out_of_sync (st : ServiceState) (id : ProjId) :
    ((st.track id).2 = (st.config.track id).2 ∧
      (st.track id).1.outOfSync = (st.track id).2) ∧
    (∀ projs, st.config.projectTracking = .allowed projs → projs.contains id = true →
      (st.track id).2 = false ∧ (st.track id).1.outOfSync = false) := by
  refine ⟨⟨rfl, rfl⟩, ?_⟩
  intro projs hpt hmem
  have hm : id ∈ projs := by simpa using hmem
  simp [ServiceState.track, Config.track, hpt, hm]

def c10State : ServiceState :=
  { mkTestState (mkTestConfig false [5]) [] 0 with outOfSync := true }

/-- Witness for `track_sets_out_of_sync`: tracking already-tracked project 5 returns
`false` and resets a previously-set `out_of_sync`. -/
theorem track_sets_out_of_sync_witness :
    c10State.outOfSync = true ∧ (c10State.track 5).2 = false ∧
      (c10State.track 5).1.outOfSync = false := by
  have h := (track_sets_out_of_sync c10State 5).2 [5] rfl (by decide)
  exact ⟨rfl, h.1, h.2⟩

/-- C2: fetch atomicity — whenever verification of the staging copy fails inside
`Repository::fetch`, the call returns that verification error and the canonical
repository (in particular its reference set) is exactly its pre-call state. -/
theorem fetch_verify_fail_atomic (canonical remote : Repo) (e : VerifyError)
    (h : (mkStaging canonical remote).verify = .error e) :
    (Repo.fetch canonical remote).1 = canonical ∧
    (Repo.fetch canonical remote).1.refs = canonical.refs ∧
    (Repo.fetch canonical remote).2 = .error (.verify e) := by
  simp [Repo.fetch, h]

def emptyRepo : Repo := ⟨[], [], fun _ => true⟩

def badRemote : Repo := ⟨[(1, 5, 7)], [(1, [])], fun _ => true⟩

/-- Witness for `fetch_verify_fail_atomic`: a remote serving an unsigned ref fails
verification and leaves the canonical repository untouched. -/
theorem fetch_verify_fail_atomic_witness :
    (Repo.fetch emptyRepo badRemote).1 = emptyRepo ∧
    (Repo.fetch emptyRepo badRemote).2 = .error (.verify (.unknownRef 1 5)) := by
  have h := fetch_verify_fail_atomic emptyRepo badRemote (.unknownRef 1 5) rfl
  exact ⟨h.1, h.2.2⟩

/-- C7: the `Fetch(project_id, reply)` command sends exactly one `FetchLookup`:
`NotTracking` when the tracking policy excludes the project; otherwise `NotFound`
when no seed (negotiated peer in `routing[project_id]`) is known; otherwise
`Error(e)` when opening the repository fails; otherwise `Found { seeds, results }`
with one `FetchResult` (`Fetched` on success, `Error` on failure) per seed
attempted — in particular as many results as seeds. -/
theorem command_fetch_reply (env : Env) (st : ServiceState) (id : ProjId) :
    (st.config.isTracking id = false → commandFetch env st id = .notTracking) ∧
    (st.config.isTracking id = true → seedsOf st id = [] →
      commandFetch env st id = .notFound) ∧
    (∀ e, st.config.isTracking id = true → seedsOf st id ≠ [] →
      env.storage.repoOpen id = .error e → commandFetch env st id = .error e) ∧
    (st.config.isTracking id = true → seedsOf st id ≠ [] →
      env.storage.repoOpen id = .ok () →
      commandFetch env st id =
        .found ((seedsOf st id).map fun p => p.2.addr)
          ((seedsOf st id).map fun p =>
            match env.storage.fetchResult id (seedUrl id p.2.addr) with
            | .ok updated => .fetched p.2.addr updated
            | .error e2 => .error p.2.addr e2) ∧
      ∀ seedsL resultsL, commandFetch env st id = .found seedsL resultsL →
        resultsL.length = seedsL.length) := by
  refine ⟨?_, ?_, ?_, ?_⟩
  · intro hnt
    simp [commandFetch, hnt]
  · intro ht hempty
    simp [commandFetch, ht, hempty]
  · intro e ht hne hro
    simp [commandFetch, ht, List.isEmpty_iff, hne, hro]
  · intro ht hne hro
    have hfound : commandFetch env st id =
        .found ((seedsOf st id).map fun p => p.2.addr)
          ((seedsOf st id).map fun p =>
            match env.storage.fetchResult id (seedUrl id p.2.addr) with
            | .ok updated => .fetched p.2.addr updated
            | .error e2 => .error p.2.addr e2) := by
      simp [commandFetch, ht, List.isEmpty_iff, hne, hro]
    refine ⟨hfound, ?_⟩
    intro seedsL resultsL heq
    rw [hfound] at heq
    cases heq
    simp

def c7State : ServiceState :=
  { mkTestState (mkTestConfig false [5])
      [(2, ⟨⟨2, 20⟩, .inbound, false, 0, none, .negotiated 7 0 [] testUrl⟩)] 0 with
    routing := [(5, [7])] }

/-- Witness for `command_fetch_reply`: one tracked project with one negotiated seed
yields `Found` with a single successful result. -/
theorem command_fetch_reply_witness :
    commandFetch (mkTestEnv true (.ok [])) c7State 5 =
      .found [⟨2, 20⟩] [.fetched ⟨2, 20⟩ []] := by
  have h := (command_fetch_reply (mkTestEnv true (.ok [])) c7State 5).2.2.2
    (by decide) (by decide) rfl
  exact h.1.trans (by decide)

/-! ## C5: handshake symmetry and order -/

theorem lookupA_setA_self {α β : Type} [DecidableEq α] (l : List (α × β)) (k : α)
    (v v₀ : β) (h : lookupA l k = some v₀) : lookupA (setA l k v) k = some v := by
  induction l with
  | nil => simp [lookupA] at h
  | cons p t ih =>
    obtain ⟨a, b⟩ := p
    by_cases hp : a = k
    · subst hp
      have hset : setA ((a, b) :: t) a v = (a, v) :: setA t a v := by
        simp [setA]
      rw [hset, lookupA, if_pos rfl]
    · rw [lookupA, if_neg hp] at h
      have hset : setA ((a, b) :: t) k v = (a, b) :: setA t k v := by
        simp [setA, hp]
      rw [hset, lookupA, if_neg hp]
      exact ih h

/-- C5: handshake symmetry and order.  On `connected` with an outbound link the
service immediately writes the four-message bundle
`[Initialize, signed NodeAnnouncement, signed InventoryAnnouncement, Subscribe]`,
in that order, to the peer (first conjunct).  On an inbound link `connected`
writes nothing and only installs an `Initial` session (second conjunct); nothing
is written for the peer until its `Initialize` with the correct version arrives in
state `Initial` under the correct magic, at which point the service replies with
the same four-message bundle and the session transitions to `Negotiated` (third
conjunct); a wrong version, a wrong magic, or any other message while `Initial`
produce only an error (conjuncts four to six). -/
theorem handshake_bundle (env : Env) (st : ServiceState) (addr : SocketAddr)
    (peer : Session) (inv : List ProjId)
    (hs : lookupA st.sessions addr.ip = some peer)
    (hinv : env.storage.inventory = .ok inv) :
    (connected env st addr .outbound =
      some ({ st with sessions := setA st.sessions addr.ip (peer.onConnected .outbound) },
        [.write addr
          [⟨st.config.network, .init env.signerPk PROTOCOL_VERSION st.config.listen st.config.gitUrl⟩,
           ⟨st.config.network, .nodeAnn env.signerPk (gossipNode st.clock st.config)
             (env.signNode (gossipNode st.clock st.config))⟩,
           ⟨st.config.network, .invAnn env.signerPk (gossipInventory st.clock inv)
             (env.signInv (gossipInventory st.clock inv))⟩,
           ⟨st.config.network, .subscribe ⟨st.config.filterOf, st.clock, TIMESTAMP_MAX⟩⟩]])) ∧
    (∀ (st0 : ServiceState) (a2 : SocketAddr),
      connected env st0 a2 .inbound =
        some ({ st0 with
          sessions := insertRA st0.sessions a2.ip (Session.new a2 .inbound (st0.config.isPersistent a2)) },
          [])) ∧
    (peer.state = .initial → peer.link = .inbound →
      ∀ (nid : NodeId) (naddrs : List Nat) (git : Url),
      handleMessage env st addr ⟨st.config.network, .init nid PROTOCOL_VERSION naddrs git⟩ =
        .ok (negotiateSession st addr.ip peer nid naddrs git)
          [.write peer.addr
            [⟨st.config.network, .init env.signerPk PROTOCOL_VERSION st.config.listen st.config.gitUrl⟩,
             ⟨st.config.network, .nodeAnn env.signerPk (gossipNode st.clock st.config)
               (env.signNode (gossipNode st.clock st.config))⟩,
             ⟨st.config.network, .invAnn env.signerPk (gossipInventory st.clock inv)
               (env.signInv (gossipInventory st.clock inv))⟩,
             ⟨st.config.network, .subscribe ⟨st.config.filterOf, st.clock, TIMESTAMP_MAX⟩⟩]]
          none ∧
      lookupA (negotiateSession st addr.ip peer nid naddrs git).sessions addr.ip =
        some { peer with state := .negotiated nid st.clock naddrs git }) ∧
    (peer.state = .initial →
      ∀ (nid : NodeId) (version : Nat) (naddrs : List Nat) (git : Url),
      version ≠ PROTOCOL_VERSION →
      handleMessage env st addr ⟨st.config.network, .init nid version naddrs git⟩ =
        .err st (.wrongVersion version)) ∧
    (∀ (m : Nat) (msgv : Message), m ≠ st.config.network →
      handleMessage env st addr ⟨m, msgv⟩ = .err st (.wrongMagic m)) ∧
    (peer.state = .initial →
      ∀ msgv : Message, (∀ nid v a g, msgv ≠ Message.init nid v a g) →
      handleMessage env st addr ⟨st.config.network, msgv⟩ = .err st .misbehavior) := by
  refine ⟨?_, ?_, ?_, ?_, ?_, ?_⟩
  · simp [connected, hs, hinv, mkEnvelopes, handshakeMsgs]
  · intro st0 a2
    simp [connected]
  · intro hinit hlink nid naddrs git
    refine ⟨?_, ?_⟩
    · simp [handleMessage, hs, hinit, hlink, hinv, mkEnvelopes, handshakeMsgs, PROTOCOL_VERSION]
    · exact lookupA_setA_self _ _ _ _ hs
  · intro hinit nid version naddrs git hv
    simp [handleMessage, hs, hinit, hv]
  · intro m msgv hm
    simp [handleMessage, hs, hm]
  · intro hinit msgv hnotinit
    unfold handleMessage
    rw [hs]
    simp only [ne_eq, not_true_eq_false, if_false, ite_not, if_pos rfl]
    cases msgv with
    | init nid v a g => exact absurd rfl (hnotinit nid v a g)
    | nodeAnn _ _ _ => simp [hinit]
    | invAnn _ _ _ => simp [hinit]
    | refsAnn _ _ _ => simp [hinit]
    | subscribe _ => simp [hinit]

def hsOutState : ServiceState :=
  mkTestState (mkTestConfig false []) [(3, Session.new ⟨3, 30⟩ .outbound false)] 0

def hsInState : ServiceState :=
  mkTestState (mkTestConfig false []) [(4, Session.new ⟨4, 40⟩ .inbound false)] 0

/-- Witness for `handshake_bundle`: the concrete bundle written on an outbound
`connected` and on an inbound `Initialize`. -/
theorem handshake_bundle_witness :
    connected (mkTestEnv true (.ok [])) hsOutState ⟨3, 30⟩ .outbound =
      some ({ hsOutState with
          sessions := [(3, Session.new ⟨3, 30⟩ .outbound false)] },
        [.write ⟨3, 30⟩
          [⟨17, .init 100 1 [] testUrl⟩,
           ⟨17, .nodeAnn 100 ⟨0, 0, [], []⟩ 0⟩,
           ⟨17, .invAnn 100 ⟨[], 0⟩ 0⟩,
           ⟨17, .subscribe ⟨[], 0, TIMESTAMP_MAX⟩⟩]]) ∧
    handleMessage (mkTestEnv true (.ok [])) hsInState ⟨4, 40⟩
        ⟨17, .init 9 1 [] testUrl⟩ =
      .ok { hsInState with
          sessions := [(4, { Session.new ⟨4, 40⟩ .inbound false with
            state := .negotiated 9 0 [] testUrl })] }
        [.write ⟨4, 40⟩
          [⟨17, .init 100 1 [] testUrl⟩,
           ⟨17, .nodeAnn 100 ⟨0, 0, [], []⟩ 0⟩,
           ⟨17, .invAnn 100 ⟨[], 0⟩ 0⟩,
           ⟨17, .subscribe ⟨[], 0, TIMESTAMP_MAX⟩⟩]]
        none := by
  have hout := (handshake_bundle (mkTestEnv true (.ok [])) hsOutState ⟨3, 30⟩
    (Session.new ⟨3, 30⟩ .outbound false) [] rfl rfl).1
  have hin := ((handshake_bundle (mkTestEnv true (.ok [])) hsInState ⟨4, 40⟩
    (Session.new ⟨4, 40⟩ .inbound false) [] rfl rfl).2.2.1 rfl rfl 9 [] testUrl).1
  exact ⟨hout.trans (by decide), hin.trans (by decide)⟩

/-! ## C6: relay gating -/

theorem mkEnvelopes_handshake_no_refsAnn (env : Env) (cfg : Config) (ts : Timestamp)
    (inv : List ProjId) :
    ∀ e ∈ mkEnvelopes cfg (handshakeMsgs env cfg ts inv),
      ∀ n m sg, e.msg ≠ .refsAnn n m sg := by
  intro e he n m sg
  simp only [mkEnvelopes, handshakeMsgs, List.map_cons, List.map_nil, List.mem_cons,
    List.not_mem_nil, or_false] at he
  rcases he with rfl | rfl | rfl | rfl <;> simp

/-- Every directive `handle_message` itself emits is either an event or a
handshake-bundle write; none of them writes a `RefsAnnouncement`. -/
theorem handleMessage_writes_no_refsAnn (env : Env) (st : ServiceState)
    (remote : SocketAddr) (envl : Envelope) (st' : ServiceState) (io : List Directive)
    (r : Option Message) (h : handleMessage env st remote envl = .ok st' io r) :
    ∀ d ∈ io, ∀ a msgs, d = .write a msgs → ∀ e ∈ msgs,
      ∀ n m sg, e.msg ≠ .refsAnn n m sg := by
  intro d hd a msgs hw e he n m sg
  unfold handleMessage at h
  repeat' split at h
  all_goals try exact HandleOut.noConfusion h
  all_goals cases h
  all_goals try simp only [List.not_mem_nil] at hd
  all_goals
    simp only [List.mem_singleton] at hd
  all_goals subst hd
  all_goals
    first
    | exact Directive.noConfusion hw
    | (cases hw
       exact mkEnvelopes_handshake_no_refsAnn env st.config st.clock _ e he n m sg)

/-- `process_inventory` touches only the routing table: sessions and configuration
are untouched. -/
theorem processInventory_frame (env : Env) :
    ∀ (inventory : List ProjId) (st st3 : ServiceState) (fromN : NodeId) (remote : Url),
    processInventory env st inventory fromN remote = .ok st3 →
    st3.sessions = st.sessions ∧ st3.config = st.config := by
  intro inventory
  induction inventory with
  | nil =>
    intro st st3 fromN remote h
    unfold processInventory at h
    cases h
    exact ⟨rfl, rfl⟩
  | cons p rest ih =>
    intro st st3 fromN remote h
    unfold processInventory at h
    split at h
    · split at h
      · exact ih { st with routing := (routingInsert st.routing p fromN).1 } st3 fromN remote h
      · exact ProcOut.noConfusion h
    · exact ih { st with routing := (routingInsert st.routing p fromN).1 } st3 fromN remote h

/-- When `handle_message` returns a message for relay, the session table is
unchanged (only inventory/refs announcements are relayed, and neither handler
touches sessions). -/
theorem handleMessage_relay_frame (env : Env) (st : ServiceState) (remote : SocketAddr)
    (envl : Envelope) (st' : ServiceState) (io : List Directive) (m : Message)
    (h : handleMessage env st remote envl = .ok st' io (some m)) :
    st'.sessions = st.sessions ∧ st'.config = st.config := by
  unfold handleMessage at h
  repeat' split at h
  all_goals try exact HandleOut.noConfusion h
  all_goals cases h
  all_goals
    first
    | exact ⟨rfl, rfl⟩
    | (rename_i hpi
       have hfr := processInventory_frame env _ _ _ _ _ hpi
       exact hfr)

/-- C6: relay gating.  In any dispatch through `received_message`, an envelope
carrying a `RefsAnnouncement` for project `m.id` is written only to a negotiated
peer other than the sender whose stored subscribe filter contains `m.id`; a
negotiated peer without a stored filter is never such a target. -/
theorem refs_relay_gating (env : Env) (st : ServiceState) (addr : SocketAddr)
    (envl : Envelope) (out : ServiceState × List Directive)
    (h : receivedMessage env st addr envl = some out)
    (d : Directive) (hd : d ∈ out.2) (a : SocketAddr) (msgs : List Envelope)
    (hw : d = .write a msgs) (e : Envelope) (he : e ∈ msgs)
    (n : NodeId) (m : RefsAnnouncement) (sg : Sig) (hm : e.msg = .refsAnn n m sg) :
    ∃ ip s sub, (ip, s) ∈ st.sessions ∧ ip ≠ addr.ip ∧ s.addr = a ∧
      s.isNegotiated = true ∧ s.subscribe = some sub ∧
      sub.filter.contains m.id = true := by
  unfold receivedMessage at h
  split at h
  · exact absurd h (by simp)
  · rename_i st' io relayMsg heq
    split at h
    · cases h
      exact absurd hm (handleMessage_writes_no_refsAnn env st addr envl st' io
        none heq d hd a msgs hw e he n m sg)
    · rename_i msg
      cases h
      rw [List.mem_append] at hd
      rcases hd with hio | hrelay
      · exact absurd hm (handleMessage_writes_no_refsAnn env st addr envl st' io
          (some msg) heq d hio a msgs hw e he n m sg)
      · have hframe := handleMessage_relay_frame env st addr envl st' io msg heq
        simp only [relayDirectives, List.mem_map] at hrelay
        obtain ⟨p, hp, hpd⟩ := hrelay
        subst hw
        cases hpd
        simp only [List.mem_singleton] at he
        subst he
        simp only at hm
        subst hm
        simp only [relayTargets, List.mem_filter] at hp
        obtain ⟨hpmem, hpsub⟩ := hp
        simp only [List.mem_map, List.mem_filter] at hpmem
        obtain ⟨q, ⟨hqmem, hqcond⟩, hqp⟩ := hpmem
        obtain ⟨ip2, s2⟩ := q
        simp only at hqp
        subst hqp
        rw [Bool.and_eq_true, bne_iff_ne] at hqcond
        rw [hframe.1] at hqmem
        cases hq2 : s2.subscribe with
        | none =>
          rw [hq2] at hpsub
          simp at hpsub
        | some sub =>
          refine ⟨ip2, s2, sub, hqmem, hqcond.1, rfl, hqcond.2, hq2, ?_⟩
          rw [hq2] at hpsub
          simpa using hpsub
  · split at h
    · cases h
      simp at hd
    · cases h
      simp only [List.mem_singleton] at hd
      subst hd
      exact absurd hw (by simp)

def c6Recv : Session := ⟨⟨2, 20⟩, .inbound, false, 0, some ⟨[5], 0, 0⟩, .negotiated 8 0 [] testUrl⟩

def c6State : ServiceState :=
  mkTestState (mkTestConfig false [5]) [(1, negSession 7), (2, c6Recv)] 0

/-- Witness for `refs_relay_gating`: a relayed `RefsAnnouncement` for project 5
reaches the peer at `2:20`, which is indeed negotiated, distinct from the sender,
and subscribed to project 5. -/
theorem refs_relay_gating_witness :
    ∃ ip s sub, (ip, s) ∈ c6State.sessions ∧ ip ≠ (1 : IpAddr) ∧
      s.addr = (⟨2, 20⟩ : SocketAddr) ∧ s.isNegotiated = true ∧
      s.subscribe = some sub ∧ sub.filter.contains (5 : ProjId) = true :=
  refs_relay_gating (mkTestEnv true (.ok [RefUpdate.created 1 1])) c6State ⟨1, 10⟩
    ⟨17, .refsAnn 7 ⟨5, []⟩ 0⟩
    (c6State, [.event (.refsFetched testUrl 5 [.created 1 1]),
      .write ⟨2, 20⟩ [⟨17, .refsAnn 7 ⟨5, []⟩ 0⟩]])
    rfl
    (.write ⟨2, 20⟩ [⟨17, .refsAnn 7 ⟨5, []⟩ 0⟩]) (by decide)
    ⟨2, 20⟩ [⟨17, .refsAnn 7 ⟨5, []⟩ 0⟩] rfl
    ⟨17, .refsAnn 7 ⟨5, []⟩ 0⟩ (by decide) 7 ⟨5, []⟩ 0 rfl

/-! ## C3: characterization of `Repository::verify` -/

theorem lookupA_setA_ne {α β : Type} [DecidableEq α] (l : List (α × β)) (k k' : α)
    (v : β) (h : k' ≠ k) : lookupA (setA l k v) k' = lookupA l k' := by
  induction l with
  | nil => rfl
  | cons p t ih =>
    obtain ⟨a, b⟩ := p
    by_cases hp : a = k
    · subst hp
      have hset : setA ((a, b) :: t) a v = (a, v) :: setA t a v := by simp [setA]
      rw [hset, lookupA, lookupA, if_neg (fun hh => h hh.symm), if_neg (fun hh => h hh.symm)]
      exact ih
    · have hset : setA ((a, b) :: t) k v = (a, b) :: setA t k v := by simp [setA, hp]
      rw [hset, lookupA, lookupA]
      by_cases ha : a = k'
      · simp [ha]
      · rw [if_neg ha, if_neg ha]
        exact ih

theorem lookupA_removeA_ne {α β : Type} [DecidableEq α] (m : List (α × β)) (k n' : α)
    (h : n' ≠ k) : lookupA (removeA m k) n' = lookupA m n' := by
  induction m with
  | nil => rfl
  | cons p t ih =>
    obtain ⟨a, b⟩ := p
    by_cases hp : a = k
    · subst hp
      have hrm : removeA ((a, b) :: t) a = removeA t a := by simp [removeA]
      rw [hrm, lookupA, if_neg (fun hh => h hh.symm)]
      exact ih
    · have hrm : removeA ((a, b) :: t) k = (a, b) :: removeA t k := by simp [removeA, hp]
      rw [hrm, lookupA, lookupA]
      by_cases ha : a = n'
      · simp [ha]
      · rw [if_neg ha, if_neg ha]
        exact ih

/-- The combined signed-map lookup: the signed oid the remotes table assigns to
`refs/remotes/<r>/<n>`. -/
def lookup2 (remotes : List (NodeId × SignedMap)) (r : NodeId) (n : RefName) : Option Oid :=
  match lookupA remotes r with
  | none => none
  | some m => lookupA m n

/-- The effect of one matched reference on the remotes table: remove the refname
from its remote's signed map.  (`remote.remove(&refname)` through `get_mut`.) -/
def eraseRef (remotes : List (NodeId × SignedMap)) (r : NodeId) (n : RefName) :
    List (NodeId × SignedMap) :=
  match lookupA remotes r with
  | none => remotes
  | some m => setA remotes r (removeA m n)

theorem lookup2_eraseRef_ne (remotes : List (NodeId × SignedMap)) (r : NodeId)
    (n : RefName) (r' : NodeId) (n' : RefName) (h : (r', n') ≠ (r, n)) :
    lookup2 (eraseRef remotes r n) r' n' = lookup2 remotes r' n' := by
  unfold eraseRef
  cases hl : lookupA remotes r with
  | none => rfl
  | some m =>
    unfold lookup2
    by_cases hr : r' = r
    · subst hr
      rw [lookupA_setA_self remotes r' (removeA m n) m hl, hl]
      have hn : n' ≠ n := fun hh => h (by simp [hh])
      exact lookupA_removeA_ne m n n' hn
    · rw [lookupA_setA_ne remotes r r' (removeA m n) hr]

/-- The full-name keys of a reference list. -/
def refKeys (refs : RepoRefs) : List (NodeId × RefName) :=
  refs.map fun q => (q.1, q.2.1)

/-- Every non-signature reference carries exactly its signed oid. -/
def RefsOk (refs : RepoRefs) (remotes : List (NodeId × SignedMap)) : Prop :=
  ∀ q ∈ refs, q.2.1 ≠ SIGNATURE_REF → lookup2 remotes q.1 q.2.1 = some q.2.2

/-- The remotes table after the reference walk: each matched reference consumed
its signed-map entry. -/
def consumeList : RepoRefs → List (NodeId × SignedMap) → List (NodeId × SignedMap)
  | [], remotes => remotes
  | (r, n, _) :: rest, remotes =>
    if n = SIGNATURE_REF then consumeList rest remotes
    else consumeList rest (eraseRef remotes r n)

theorem RefsOk_eraseRef (rest : RepoRefs) (remotes : List (NodeId × SignedMap))
    (r : NodeId) (n : RefName) (hne : ∀ q ∈ rest, (q.1, q.2.1) ≠ (r, n)) :
    RefsOk rest (eraseRef remotes r n) ↔ RefsOk rest remotes := by
  constructor <;> intro h q hq hsig
  · rw [← lookup2_eraseRef_ne remotes r n q.1 q.2.1 (hne q hq)]
    exact h q hq hsig
  · rw [lookup2_eraseRef_ne remotes r n q.1 q.2.1 (hne q hq)]
    exact h q hq hsig

theorem verifyRefsLoop_ok_iff :
    ∀ (refs : RepoRefs) (remotes rem : List (NodeId × SignedMap)),
    (refKeys refs).Nodup →
    (verifyRefsLoop refs remotes = .ok rem ↔
      RefsOk refs remotes ∧ rem = consumeList refs remotes) := by
  intro refs
  induction refs with
  | nil =>
    intro remotes rem hnd
    constructor
    · intro h
      simp only [verifyRefsLoop] at h
      cases h
      exact ⟨fun q hq => absurd hq (List.not_mem_nil q), rfl⟩
    · rintro ⟨-, rfl⟩
      rfl
  | cons q rest ih =>
    obtain ⟨r, n, o⟩ := q
    intro remotes rem hnd
    have hndc := List.nodup_cons.mp (show ((r, n) :: refKeys rest).Nodup from hnd)
    have hnd' : (refKeys rest).Nodup := hndc.2
    have hne : ∀ q' ∈ rest, (q'.1, q'.2.1) ≠ (r, n) := by
      intro q' hq' heq
      exact hndc.1 (heq ▸ List.mem_map_of_mem (fun q => (q.1, q.2.1)) hq')
    by_cases hsig : n = SIGNATURE_REF
    · simp only [verifyRefsLoop, if_pos hsig, consumeList]
      rw [ih remotes rem hnd']
      constructor
      · rintro ⟨hA, hrem⟩
        refine ⟨?_, hrem⟩
        intro q' hq' hs
        rcases List.mem_cons.mp hq' with rfl | hq'
        · exact absurd hsig hs
        · exact hA q' hq' hs
      · rintro ⟨hA, hrem⟩
        exact ⟨fun q' hq' => hA q' (List.mem_cons_of_mem _ hq'), hrem⟩
    · simp only [verifyRefsLoop, if_neg hsig, consumeList]
      cases hl : lookupA remotes r with
      | none =>
        simp only [hl]
        constructor
        · intro h
          exact Except.noConfusion h
        · rintro ⟨hA, -⟩
          have hh := hA (r, n, o) (List.mem_cons_self _ _) hsig
          simp only [lookup2, hl] at hh
          exact Option.noConfusion hh
      | some m =>
        simp only [hl]
        cases hm : lookupA m n with
        | none =>
          simp only [hm]
          constructor
          · intro h
            exact Except.noConfusion h
          · rintro ⟨hA, -⟩
            have hh := hA (r, n, o) (List.mem_cons_self _ _) hsig
            simp only [lookup2, hl, hm] at hh
            exact Option.noConfusion hh
        | some so =>
          simp only [hm]
          by_cases ho : o = so
          · have herase : eraseRef remotes r n = setA remotes r (removeA m n) := by
              unfold eraseRef
              rw [hl]
            rw [if_pos ho, ← herase, ih (eraseRef remotes r n) rem hnd',
              RefsOk_eraseRef rest remotes r n hne]
            constructor
            · rintro ⟨hA, hrem⟩
              refine ⟨?_, hrem⟩
              intro q' hq'
              rcases List.mem_cons.mp hq' with rfl | hq'
              · intro _
                simp only [lookup2, hl, hm, ho]
              · exact hA q' hq'
            · rintro ⟨hA, hrem⟩
              exact ⟨fun q' hq' => hA q' (List.mem_cons_of_mem _ hq'), hrem⟩
          · rw [if_neg ho]
            constructor
            · intro h
              exact Except.noConfusion h
            · rintro ⟨hA, -⟩
              have hh := hA (r, n, o) (List.mem_cons_self _ _) hsig
              simp only [lookup2, hl, hm, Option.some.injEq] at hh
              exact absurd hh.symm ho

theorem verifyRemotesLoop_ok_iff (idOk : NodeId → Bool) :
    ∀ l : List (NodeId × SignedMap),
    (verifyRemotesLoop idOk l = .ok () ↔ ∀ rm ∈ l, rm.2 = [] ∧ idOk rm.1 = true) := by
  intro l
  induction l with
  | nil => simp [verifyRemotesLoop]
  | cons rm rest ih =>
    obtain ⟨r, m⟩ := rm
    cases m with
    | cons p t =>
      simp only [verifyRemotesLoop]
      constructor
      · intro h
        exact Except.noConfusion h
      · intro h
        have := (h (r, p :: t) (List.mem_cons_self _ _)).1
        exact absurd this (by simp)
    | nil =>
      simp only [verifyRemotesLoop]
      by_cases hid : idOk r
      · rw [if_pos hid, ih]
        constructor
        · intro h rm' hrm'
          rcases List.mem_cons.mp hrm' with rfl | hrm'
          · exact ⟨rfl, hid⟩
          · exact h rm' hrm'
        · intro h rm' hrm'
          exact h rm' (List.mem_cons_of_mem _ hrm')
      · rw [if_neg hid]
        constructor
        · intro h
          exact Except.noConfusion h
        · intro h
          exact absurd (h (r, []) (List.mem_cons_self _ _)).2 hid

theorem setA_keys {α β : Type} [DecidableEq α] (l : List (α × β)) (k : α) (v : β) :
    (setA l k v).map Prod.fst = l.map Prod.fst := by
  induction l with
  | nil => rfl
  | cons p t ih =>
    have hstep : setA (p :: t) k v = (if p.1 = k then (k, v) else p) :: setA t k v := rfl
    rw [hstep, List.map_cons, List.map_cons, ih]
    congr 1
    by_cases hp : p.1 = k
    · rw [if_pos hp]
      exact hp.symm
    · rw [if_neg hp]

theorem eraseRef_keys (remotes : List (NodeId × SignedMap)) (r : NodeId) (n : RefName) :
    (eraseRef remotes r n).map Prod.fst = remotes.map Prod.fst := by
  unfold eraseRef
  cases hl : lookupA remotes r with
  | none => rfl
  | some m => exact setA_keys remotes r (removeA m n)

theorem consumeList_keys :
    ∀ (refs : RepoRefs) (remotes : List (NodeId × SignedMap)),
    (consumeList refs remotes).map Prod.fst = remotes.map Prod.fst := by
  intro refs
  induction refs with
  | nil => intro remotes; rfl
  | cons q rest ih =>
    obtain ⟨r1, n1, o1⟩ := q
    intro remotes
    by_cases hsig : n1 = SIGNATURE_REF
    · simp only [consumeList, if_pos hsig]
      exact ih remotes
    · simp only [consumeList, if_neg hsig]
      rw [ih (eraseRef remotes r1 n1)]
      exact eraseRef_keys remotes r1 n1

theorem lookupA_eq_some_of_mem {α β : Type} [DecidableEq α] {l : List (α × β)} {k : α}
    {v : β} (hnd : (l.map Prod.fst).Nodup) (h : (k, v) ∈ l) : lookupA l k = some v := by
  induction l with
  | nil => exact absurd h (List.not_mem_nil _)
  | cons p t ih =>
    obtain ⟨a, b⟩ := p
    have hndc := List.nodup_cons.mp hnd
    rcases List.mem_cons.mp h with heq | hmem
    · cases heq
      rw [lookupA, if_pos rfl]
    · rw [lookupA]
      by_cases ha : a = k
      · subst ha
        exact absurd (List.mem_map_of_mem Prod.fst hmem) hndc.1
      · rw [if_neg ha]
        exact ih hndc.2 hmem

theorem mem_of_lookupA {α β : Type} [DecidableEq α] {l : List (α × β)} {k : α} {v : β}
    (h : lookupA l k = some v) : (k, v) ∈ l := by
  induction l with
  | nil => exact Option.noConfusion h
  | cons p t ih =>
    obtain ⟨a, b⟩ := p
    rw [lookupA] at h
    by_cases ha : a = k
    · rw [if_pos ha] at h
      subst ha
      cases h
      exact List.mem_cons_self _ _
    · rw [if_neg ha] at h
      exact List.mem_cons_of_mem _ (ih h)

/-- Whether some non-signature reference with the given full name exists (and so
would have consumed the corresponding signed-map entry during the walk). -/
def hasEraserB (refs : RepoRefs) (r : NodeId) (n : RefName) : Bool :=
  refs.any fun q => q.1 == r && q.2.1 == n && q.2.1 != SIGNATURE_REF

/-- The part of a signed map not consumed by the reference walk. -/
def removeRefs (refs : RepoRefs) (r : NodeId) (m : SignedMap) : SignedMap :=
  m.filter fun p => !(hasEraserB refs r p.1)

theorem lookupA_consumeList :
    ∀ (refs : RepoRefs) (remotes : List (NodeId × SignedMap)) (r : NodeId),
    lookupA (consumeList refs remotes) r = (lookupA remotes r).map (removeRefs refs r) := by
  intro refs
  induction refs with
  | nil =>
    intro remotes r
    simp only [consumeList]
    cases hl : lookupA remotes r with
    | none => rfl
    | some m =>
      simp only [Option.map_some']
      congr 1
      exact (List.filter_eq_self.mpr (fun p _ => by simp [hasEraserB])).symm
  | cons q rest ih =>
    obtain ⟨r1, n1, o1⟩ := q
    intro remotes r
    by_cases hsig : n1 = SIGNATURE_REF
    · simp only [consumeList, if_pos hsig]
      rw [ih remotes r]
      cases hl : lookupA remotes r with
      | none => rfl
      | some m =>
        simp only [Option.map_some']
        congr 1
        apply List.filter_congr
        intro p hp
        simp [hasEraserB, List.any_cons, hsig]
    · simp only [consumeList, if_neg hsig]
      rw [ih (eraseRef remotes r1 n1) r]
      by_cases hr : r = r1
      · subst hr
        cases hl : lookupA remotes r with
        | none =>
          have he : eraseRef remotes r n1 = remotes := by
            unfold eraseRef
            rw [hl]
          rw [he, hl]
          rfl
        | some m =>
          have he : eraseRef remotes r n1 = setA remotes r (removeA m n1) := by
            unfold eraseRef
            rw [hl]
          rw [he, lookupA_setA_self remotes r (removeA m n1) m hl]
          simp only [Option.map_some']
          congr 1
          unfold removeRefs removeA
          rw [List.filter_filter]
          apply List.filter_congr
          intro p hp
          by_cases hpn : p.1 = n1 <;> by_cases hrb : hasEraserB rest r p.1 <;>
            simp [hasEraserB, List.any_cons, hpn, hsig, hrb] <;>
            try exact fun _ hh => hpn hh.symm
      · have he : lookupA (eraseRef remotes r1 n1) r = lookupA remotes r := by
          unfold eraseRef
          cases hl1 : lookupA remotes r1 with
          | none => rfl
          | some m1 => exact lookupA_setA_ne remotes r1 r (removeA m1 n1) hr
        rw [he]
        cases hl : lookupA remotes r with
        | none => rfl
        | some m =>
          simp only [Option.map_some']
          congr 1
          apply List.filter_congr
          intro p hp
          have hr1 : r1 ≠ r := fun hh => hr hh.symm
          simp [hasEraserB, List.any_cons, hr1]

/-- Spec condition: every entry of each signed map has a corresponding repository
reference. -/
def SignedCovered (repo : Repo) : Prop :=
  ∀ rm ∈ repo.signed, ∀ p ∈ rm.2, ∃ o', (rm.1, p.1, o') ∈ repo.refs

/-- Spec condition: every remote's identity history passes its consistency check. -/
def IdsOk (repo : Repo) : Prop :=
  ∀ rm ∈ repo.signed, repo.idOk rm.1 = true

theorem lookup2_eq_some {remotes : List (NodeId × SignedMap)} {r : NodeId}
    {n : RefName} {o : Oid} (h : lookup2 remotes r n = some o) :
    ∃ m, lookupA remotes r = some m ∧ lookupA m n = some o := by
  unfold lookup2 at h
  cases hh : lookupA remotes r with
  | none =>
    rw [hh] at h
    exact Option.noConfusion h
  | some m =>
    rw [hh] at h
    exact ⟨m, rfl, h⟩

theorem consume_entry (repo : Repo) (H2 : (repo.signed.map Prod.fst).Nodup)
    (rm : NodeId × SignedMap) (hrm : rm ∈ consumeList repo.refs repo.signed) :
    ∃ m, (rm.1, m) ∈ repo.signed ∧ rm.2 = removeRefs repo.refs rm.1 m := by
  have hkey : rm.1 ∈ repo.signed.map Prod.fst := by
    rw [← consumeList_keys repo.refs]
    exact List.mem_map_of_mem Prod.fst hrm
  rw [List.mem_map] at hkey
  obtain ⟨x, hx, hx1⟩ := hkey
  have hlk : lookupA repo.signed rm.1 = some x.2 := by
    rw [← hx1]
    exact lookupA_eq_some_of_mem H2 hx
  have hndc : ((consumeList repo.refs repo.signed).map Prod.fst).Nodup := by
    rw [consumeList_keys]
    exact H2
  have hlc := lookupA_eq_some_of_mem hndc hrm
  rw [lookupA_consumeList, hlk] at hlc
  refine ⟨x.2, ?_, (Option.some.inj hlc).symm⟩
  rw [← hx1]
  exact hx

theorem removeRefs_eq_nil (repo : Repo) (r : NodeId) (m : SignedMap)
    (hcov : ∀ p ∈ m, p.1 ≠ SIGNATURE_REF ∧ ∃ o', (r, p.1, o') ∈ repo.refs) :
    removeRefs repo.refs r m = [] := by
  apply List.filter_eq_nil_iff.mpr
  intro p hp
  obtain ⟨hps, o', ho'⟩ := hcov p hp
  have htrue : hasEraserB repo.refs r p.1 = true := by
    simp only [hasEraserB, List.any_eq_true]
    exact ⟨(r, p.1, o'), ho', by simp [hps]⟩
  simp [htrue]

theorem consume_empty_iff (repo : Repo)
    (H2 : (repo.signed.map Prod.fst).Nodup)
    (H4 : ∀ rm ∈ repo.signed, ∀ p ∈ rm.2, p.1 ≠ SIGNATURE_REF) :
    (∀ rm ∈ consumeList repo.refs repo.signed, rm.2 = []) ↔ SignedCovered repo := by
  constructor
  · intro h rm hrm p hp
    have hlk : lookupA repo.signed rm.1 = some rm.2 := lookupA_eq_some_of_mem H2 hrm
    have hlc : lookupA (consumeList repo.refs repo.signed) rm.1 =
        some (removeRefs repo.refs rm.1 rm.2) := by
      rw [lookupA_consumeList, hlk]
      rfl
    have hempty : removeRefs repo.refs rm.1 rm.2 = [] := h _ (mem_of_lookupA hlc)
    have hq : hasEraserB repo.refs rm.1 p.1 = true := by
      by_contra hq
      have hpmem : p ∈ removeRefs repo.refs rm.1 rm.2 :=
        List.mem_filter.mpr ⟨hp, by simp [Bool.not_eq_true] at hq; simp [hq]⟩
      rw [hempty] at hpmem
      exact List.not_mem_nil p hpmem
    simp only [hasEraserB, List.any_eq_true] at hq
    obtain ⟨q, hqm, hqc⟩ := hq
    simp only [Bool.and_eq_true, beq_iff_eq, bne_iff_ne] at hqc
    refine ⟨q.2.2, ?_⟩
    rw [← hqc.1.1, ← hqc.1.2]
    exact hqm
  · intro hcov rm hrm
    obtain ⟨m', hm', hrm2⟩ := consume_entry repo H2 rm hrm
    rw [hrm2]
    apply removeRefs_eq_nil
    intro p hp
    exact ⟨H4 (rm.1, m') hm' p hp, hcov (rm.1, m') hm' p hp⟩

theorem consume_ids_iff (repo : Repo) :
    (∀ rm ∈ consumeList repo.refs repo.signed, repo.idOk rm.1 = true) ↔ IdsOk repo := by
  unfold IdsOk
  constructor <;> intro h rm hrm
  · have hk : rm.1 ∈ (consumeList repo.refs repo.signed).map Prod.fst := by
      rw [consumeList_keys]
      exact List.mem_map_of_mem Prod.fst hrm
    rw [List.mem_map] at hk
    obtain ⟨y, hy, hy1⟩ := hk
    rw [← hy1]
    exact h y hy
  · have hk : rm.1 ∈ repo.signed.map Prod.fst := by
      rw [← consumeList_keys repo.refs]
      exact List.mem_map_of_mem Prod.fst hrm
    rw [List.mem_map] at hk
    obtain ⟨y, hy, hy1⟩ := hk
    rw [← hy1]
    exact h y hy

theorem verifyRefsLoop_mismatch (r₀ : NodeId) (n₀ : RefName) (o₀ s₀ : Oid) :
    ∀ (refs : RepoRefs) (remotes : List (NodeId × SignedMap)),
    (refKeys refs).Nodup →
    (r₀, n₀, o₀) ∈ refs → n₀ ≠ SIGNATURE_REF →
    lookup2 remotes r₀ n₀ = some s₀ → s₀ ≠ o₀ →
    (∀ q ∈ refs, q.2.1 ≠ SIGNATURE_REF → (q.1, q.2.1) ≠ (r₀, n₀) →
      lookup2 remotes q.1 q.2.1 = some q.2.2) →
    verifyRefsLoop refs remotes = .error (.invalidRefTarget r₀ n₀ o₀) := by
  intro refs
  induction refs with
  | nil =>
    intro remotes _ hmem
    exact absurd hmem (List.not_mem_nil _)
  | cons q rest ih =>
    obtain ⟨r1, n1, o1⟩ := q
    intro remotes hnd hmem hsig hl2 hso hA
    have hndc := List.nodup_cons.mp (show ((r1, n1) :: refKeys rest).Nodup from hnd)
    by_cases hkey : (r1, n1) = (r₀, n₀)
    · cases hkey
      have ho : o₀ = o1 := by
        rcases List.mem_cons.mp hmem with heq | hmem'
        · cases heq
          rfl
        · exact absurd (List.mem_map_of_mem (fun q => (q.1, q.2.1)) hmem') hndc.1
      obtain ⟨m, hm, hmn⟩ := lookup2_eq_some hl2
      simp only [verifyRefsLoop, if_neg hsig, hm, hmn]
      rw [if_neg (fun hh : o1 = s₀ => hso (ho ▸ hh.symm)), ho]
    · have hmem' : (r₀, n₀, o₀) ∈ rest := by
        rcases List.mem_cons.mp hmem with heq | hm'
        · exfalso
          cases heq
          exact hkey rfl
        · exact hm'
      by_cases hsig1 : n1 = SIGNATURE_REF
      · simp only [verifyRefsLoop, if_pos hsig1]
        exact ih remotes hndc.2 hmem' hsig hl2 hso
          (fun q hq hs hk => hA q (List.mem_cons_of_mem _ hq) hs hk)
      · have hhead := hA (r1, n1, o1) (List.mem_cons_self _ _) hsig1 hkey
        obtain ⟨m1, hm1, hm1n⟩ := lookup2_eq_some hhead
        simp only [verifyRefsLoop, if_neg hsig1, hm1, hm1n, if_true]
        have herase : setA remotes r1 (removeA m1 n1) = eraseRef remotes r1 n1 := by
          unfold eraseRef
          rw [hm1]
        rw [herase]
        refine ih (eraseRef remotes r1 n1) hndc.2 hmem' hsig ?_ hso ?_
        · rw [lookup2_eraseRef_ne remotes r1 n1 r₀ n₀ (fun hh => hkey hh.symm)]
          exact hl2
        · intro q hq hs hk
          have hqkey : (q.1, q.2.1) ≠ (r1, n1) := by
            intro hh
            exact hndc.1 (hh ▸ List.mem_map_of_mem (fun q => (q.1, q.2.1)) hq)
          rw [lookup2_eraseRef_ne remotes r1 n1 q.1 q.2.1 hqkey]
          exact hA q (List.mem_cons_of_mem _ hq) hs hk

theorem filter_key_unique {m : SignedMap} (hnd : (m.map Prod.fst).Nodup)
    (x : RefName × Oid) (p : RefName × Oid → Bool) (hx : x ∈ m) (hpx : p x = true)
    (hkey : ∀ y ∈ m, p y = true → y.1 = x.1) :
    m.filter p = [x] := by
  induction m with
  | nil => exact absurd hx (List.not_mem_nil _)
  | cons y t ih =>
    have hndc := List.nodup_cons.mp hnd
    rcases List.mem_cons.mp hx with rfl | hxt
    · rw [List.filter_cons_of_pos hpx]
      have hrest : t.filter p = [] := by
        apply List.filter_eq_nil_iff.mpr
        intro z hz hpz
        have hz1 : z.1 = x.1 := hkey z (List.mem_cons_of_mem _ hz) hpz
        exact hndc.1 (hz1 ▸ List.mem_map_of_mem Prod.fst hz)
      rw [hrest]
    · have hpy : ¬ p y = true := by
        intro hpy
        have h1 : y.1 = x.1 := hkey y (List.mem_cons_self _ _) hpy
        exact hndc.1 (by rw [h1]; exact List.mem_map_of_mem Prod.fst hxt)
      rw [List.filter_cons_of_neg hpy]
      exact ih hndc.2 hxt (fun z hz hpz => hkey z (List.mem_cons_of_mem _ hz) hpz)

theorem verifyRemotesLoop_missing (idOk : NodeId → Bool) (r₀ : NodeId) (n₀ : RefName)
    (o₀ : Oid) (t : SignedMap) (l2 : List (NodeId × SignedMap)) :
    ∀ l1 : List (NodeId × SignedMap), (∀ rm ∈ l1, rm.2 = [] ∧ idOk rm.1 = true) →
    verifyRemotesLoop idOk (l1 ++ (r₀, (n₀, o₀) :: t) :: l2) =
      .error (.missingRef r₀ n₀) := by
  intro l1
  induction l1 with
  | nil =>
    intro _
    rfl
  | cons rm rest ih =>
    intro h
    obtain ⟨r1, m1⟩ := rm
    have h1 := h (r1, m1) (List.mem_cons_self _ _)
    have hm1 : m1 = [] := h1.1
    subst hm1
    simp only [List.cons_append, verifyRemotesLoop]
    rw [if_pos h1.2]
    exact ih (fun rm' hrm' => h rm' (List.mem_cons_of_mem _ hrm'))

/-- C3: characterization of `Repository::verify`.  Under the structural invariants
of a git repository (unique reference names, unique map keys, signed maps that do
not list the signature reference itself):

first conjunct — `verify` returns `Ok` iff every reference under a remote's
subtree except the signature reference appears in that remote's signed map with an
equal object id (`RefsOk`), every entry of each signed map has a corresponding
repository reference (`SignedCovered`), and every remote's identity history passes
its consistency check (`IdsOk`);

second conjunct — a reference whose target differs from its signed object id (all
other references matching) yields `InvalidRefTarget` for it;

third conjunct — a signed entry with no corresponding repository reference (all
other signed entries having one, references and identities otherwise fine) yields
`MissingRef` for it. -/
theorem verify_characterization (repo : Repo)
    (H1 : (refKeys repo.refs).Nodup)
    (H2 : (repo.signed.map Prod.fst).Nodup)
    (H3 : ∀ rm ∈ repo.signed, (rm.2.map Prod.fst).Nodup)
    (H4 : ∀ rm ∈ repo.signed, ∀ p ∈ rm.2, p.1 ≠ SIGNATURE_REF) :
    (repo.verify = .ok () ↔
      RefsOk repo.refs repo.signed ∧ SignedCovered repo ∧ IdsOk repo) ∧
    (∀ r₀ n₀ o₀ s₀, (r₀, n₀, o₀) ∈ repo.refs → n₀ ≠ SIGNATURE_REF →
      lookup2 repo.signed r₀ n₀ = some s₀ → s₀ ≠ o₀ →
      (∀ q ∈ repo.refs, q.2.1 ≠ SIGNATURE_REF → (q.1, q.2.1) ≠ (r₀, n₀) →
        lookup2 repo.signed q.1 q.2.1 = some q.2.2) →
      repo.verify = .error (.invalidRefTarget r₀ n₀ o₀)) ∧
    (∀ r₀ n₀ o₀ m₀, RefsOk repo.refs repo.signed → IdsOk repo →
      (r₀, m₀) ∈ repo.signed → (n₀, o₀) ∈ m₀ →
      (∀ o', (r₀, n₀, o') ∉ repo.refs) →
      (∀ rm ∈ repo.signed, ∀ p ∈ rm.2, (rm.1, p.1) ≠ (r₀, n₀) →
        ∃ o', (rm.1, p.1, o') ∈ repo.refs) →
      repo.verify = .error (.missingRef r₀ n₀)) := by
  refine ⟨?_, ?_, ?_⟩
  · cases hloop : verifyRefsLoop repo.refs repo.signed with
    | error e =>
      simp only [Repo.verify, hloop]
      constructor
      · intro h
        exact Except.noConfusion h
      · rintro ⟨hA, -, -⟩
        have hok := (verifyRefsLoop_ok_iff repo.refs repo.signed
          (consumeList repo.refs repo.signed) H1).mpr ⟨hA, rfl⟩
        rw [hloop] at hok
        exact Except.noConfusion hok
    | ok rem =>
      obtain ⟨hA, hrem⟩ := (verifyRefsLoop_ok_iff repo.refs repo.signed rem H1).mp hloop
      subst hrem
      simp only [Repo.verify, hloop]
      rw [verifyRemotesLoop_ok_iff]
      constructor
      · intro h
        exact ⟨hA, (consume_empty_iff repo H2 H4).mp (fun rm hrm => (h rm hrm).1),
          (consume_ids_iff repo).mp (fun rm hrm => (h rm hrm).2)⟩
      · rintro ⟨-, hcov, hids⟩ rm hrm
        exact ⟨(consume_empty_iff repo H2 H4).mpr hcov rm hrm,
          (consume_ids_iff repo).mpr hids rm hrm⟩
  · intro r₀ n₀ o₀ s₀ hmem hsig hl2 hso hA
    have hmm := verifyRefsLoop_mismatch r₀ n₀ o₀ s₀ repo.refs repo.signed
      H1 hmem hsig hl2 hso hA
    simp only [Repo.verify, hmm]
  · intro r₀ n₀ o₀ m₀ hA hids hm hn habs hothers
    have hloop : verifyRefsLoop repo.refs repo.signed =
        .ok (consumeList repo.refs repo.signed) :=
      (verifyRefsLoop_ok_iff repo.refs repo.signed _ H1).mpr ⟨hA, rfl⟩
    have hlk : lookupA repo.signed r₀ = some m₀ := lookupA_eq_some_of_mem H2 hm
    have hlc : lookupA (consumeList repo.refs repo.signed) r₀ =
        some (removeRefs repo.refs r₀ m₀) := by
      rw [lookupA_consumeList, hlk]
      rfl
    have hfu : removeRefs repo.refs r₀ m₀ = [(n₀, o₀)] := by
      unfold removeRefs
      refine filter_key_unique (H3 (r₀, m₀) hm) (n₀, o₀) _ hn ?_ ?_
      · have hfalse : hasEraserB repo.refs r₀ n₀ = false := by
          by_contra hcon
          rw [Bool.not_eq_false] at hcon
          simp only [hasEraserB, List.any_eq_true] at hcon
          obtain ⟨q, hqm, hqc⟩ := hcon
          simp only [Bool.and_eq_true, beq_iff_eq, bne_iff_ne] at hqc
          exact habs q.2.2 (by rw [← hqc.1.1, ← hqc.1.2]; exact hqm)
        simp [hfalse]
      · intro y hy hpy
        by_contra hyne
        obtain ⟨o', ho'⟩ := hothers (r₀, m₀) hm y hy
          (fun hh => hyne (congrArg Prod.snd hh))
        have hysig := H4 (r₀, m₀) hm y hy
        have htrue : hasEraserB repo.refs r₀ y.1 = true := by
          simp only [hasEraserB, List.any_eq_true]
          exact ⟨(r₀, y.1, o'), ho', by simp [hysig]⟩
        simp [htrue] at hpy
    have hmemc : (r₀, [(n₀, o₀)]) ∈ consumeList repo.refs repo.signed := by
      have hmem0 := mem_of_lookupA hlc
      rw [hfu] at hmem0
      exact hmem0
    obtain ⟨l1, l2, hdec⟩ := List.append_of_mem hmemc
    have hndc : ((consumeList repo.refs repo.signed).map Prod.fst).Nodup := by
      rw [consumeList_keys]
      exact H2
    rw [hdec, List.map_append, List.map_cons] at hndc
    have hdisj := (List.nodup_append.mp hndc).2.2
    have hl1 : ∀ rm ∈ l1, rm.2 = [] ∧ repo.idOk rm.1 = true := by
      intro rm hrm
      have hrmc : rm ∈ consumeList repo.refs repo.signed := by
        rw [hdec]
        exact List.mem_append_left _ hrm
      obtain ⟨m', hm', hrm2⟩ := consume_entry repo H2 rm hrmc
      have hkne : rm.1 ≠ r₀ := by
        intro hh
        have hin : rm.1 ∈ l1.map Prod.fst := List.mem_map_of_mem Prod.fst hrm
        have hnotin := hdisj hin
        rw [hh] at hnotin
        exact hnotin (List.mem_cons_self _ _)
      refine ⟨?_, hids (rm.1, m') hm'⟩
      rw [hrm2]
      apply removeRefs_eq_nil
      intro p hp
      refine ⟨H4 (rm.1, m') hm' p hp, ?_⟩
      exact hothers (rm.1, m') hm' p hp (fun hh => hkne (congrArg Prod.fst hh))
    simp only [Repo.verify, hloop]
    rw [hdec]
    exact verifyRemotesLoop_missing repo.idOk r₀ n₀ o₀ [] l2 l1 hl1

def repoA : Repo := ⟨[(1, SIGNATURE_REF, 9), (1, 2, 7)], [(1, [(2, 7)])], fun _ => true⟩

def repoB : Repo := ⟨[(1, 2, 8)], [(1, [(2, 7)])], fun _ => true⟩

def repoC : Repo := ⟨[], [(1, [(2, 7)])], fun _ => true⟩

/-- Witness for `verify_characterization`: a consistent repository verifies; a
repository whose only reference disagrees with its signed oid fails with
`InvalidRefTarget`; a repository missing a signed reference fails with
`MissingRef`. -/
theorem verify_characterization_witness :
    repoA.verify = .ok () ∧
    repoB.verify = .error (.invalidRefTarget 1 2 8) ∧
    repoC.verify = .error (.missingRef 1 2) := by
  refine ⟨?_, ?_, ?_⟩
  · refine (verify_characterization repoA (by decide) (by decide) (by decide)
      (by decide)).1.mpr ⟨by unfold RefsOk; decide, ?_, fun rm hrm => rfl⟩
    intro rm hrm p hp
    simp only [repoA, List.mem_singleton] at hrm
    subst hrm
    simp only [List.mem_singleton] at hp
    subst hp
    exact ⟨7, by decide⟩
  · exact (verify_characterization repoB (by decide) (by decide) (by decide)
      (by decide)).2.1 1 2 8 7 (by decide) (by decide) (by decide) (by decide)
      (by decide)
  · refine (verify_characterization repoC (by decide) (by decide) (by decide)
      (by decide)).2.2 1 2 7 [(2, 7)] (by unfold RefsOk; decide) (fun rm hrm => rfl)
      (by decide) (by decide) (fun o' h => List.not_mem_nil _ h) ?_
    intro rm hrm p hp hne
    simp only [repoC, List.mem_singleton] at hrm
    subst hrm
    simp only [List.mem_singleton] at hp
    subst hp
    exact absurd rfl hne

/-! ## C9: round-trip of the node identity string form -/

theorem toDigitsF_eq_digits (b : Nat) (hb : 2 ≤ b) :
    ∀ (f n : Nat), n ≤ f → toDigitsF b f n = Nat.digits b n := by
  intro f
  induction f with
  | zero =>
    intro n hn
    have h0 : n = 0 := Nat.le_zero.mp hn
    subst h0
    simp [toDigitsF]
  | succ f ih =>
    intro n hn
    cases n with
    | zero => simp [toDigitsF]
    | succ n =>
      rw [Nat.digits_def' (by omega : 1 < b) (Nat.succ_pos n)]
      show ((n + 1) % b) :: toDigitsF b f ((n + 1) / b) = _
      congr 1
      apply ih
      have hdiv : (n + 1) / b < n + 1 := Nat.div_lt_self (Nat.succ_pos n) (by omega)
      omega

theorem natDigits_eq (b : Nat) (hb : 2 ≤ b) (n : Nat) : natDigits b n = Nat.digits b n :=
  toDigitsF_eq_digits b hb n n le_rfl

theorem ofDigitsN_eq (b : Nat) : ∀ l : List Nat, ofDigitsN b l = Nat.ofDigits b l := by
  intro l
  induction l with
  | nil => simp [ofDigitsN]
  | cons d t ih => simp [ofDigitsN, Nat.ofDigits_cons, ih]

theorem ofDigits_append_zeros (b : Nat) (l : List Nat) (z : Nat) :
    Nat.ofDigits b (l ++ List.replicate z 0) = Nat.ofDigits b l := by
  rw [Nat.ofDigits_append]
  have hz : Nat.ofDigits b (List.replicate z 0) = 0 := by
    induction z with
    | zero => simp
    | succ z ih => simp [List.replicate_succ, Nat.ofDigits_cons, ih]
  simp [hz]

theorem b58val_b58char : ∀ d < 58, b58val (b58char d) = some d := by decide

theorem b58vals_map : ∀ ds : List Nat, (∀ d ∈ ds, d < 58) →
    b58vals (ds.map b58char) = some ds := by
  intro ds
  induction ds with
  | nil => intro _; rfl
  | cons d t ih =>
    intro h
    rw [List.map_cons]
    show (match b58val (b58char d), b58vals (t.map b58char) with
      | some v, some vs => some (v :: vs)
      | _, _ => none) = some (d :: t)
    rw [b58val_b58char d (h d (List.mem_cons_self _ _)),
      ih (fun e he => h e (List.mem_cons_of_mem _ he))]

theorem b58vals_app (z : Nat) (ds : List Nat) (h : ∀ d ∈ ds, d < 58) :
    b58vals (List.replicate z '1' ++ ds.map b58char) =
      some (List.replicate z 0 ++ ds) := by
  induction z with
  | zero =>
    simp only [List.replicate, List.nil_append]
    exact b58vals_map ds h
  | succ z ih =>
    rw [List.replicate_succ, List.cons_append]
    show (match b58val '1', b58vals (List.replicate z '1' ++ ds.map b58char) with
      | some v, some vs => some (v :: vs)
      | _, _ => none) = _
    rw [ih]
    rfl

theorem clz_replicate_append (z : Nat) (l : List Nat) :
    countLeadingZeros (List.replicate z 0 ++ l) = z + countLeadingZeros l := by
  induction z with
  | zero => simp
  | succ z ih =>
    rw [List.replicate_succ, List.cons_append]
    show (if (0 : Nat) = 0 then countLeadingZeros (List.replicate z 0 ++ l) + 1 else 0) = _
    rw [if_pos rfl, ih]
    omega

theorem clz_of_head_ne (x : Nat) (t : List Nat) (h : x ≠ 0) :
    countLeadingZeros (x :: t) = 0 := by
  simp [countLeadingZeros, h]

theorem replicate_clz_append_dropZeros :
    ∀ l : List Nat, l = List.replicate (countLeadingZeros l) 0 ++ dropZeros l := by
  intro l
  induction l with
  | nil => rfl
  | cons x t ih =>
    by_cases hx : x = 0
    · subst hx
      show (0 : Nat) :: t = List.replicate (countLeadingZeros t + 1) 0 ++ dropZeros t
      rw [List.replicate_succ, List.cons_append]
      exact congrArg (0 :: ·) ih
    · simp [countLeadingZeros, dropZeros, hx]

theorem dropZeros_head :
    ∀ l : List Nat, dropZeros l = [] ∨ ∃ x t, dropZeros l = x :: t ∧ x ≠ 0 := by
  intro l
  induction l with
  | nil => exact Or.inl rfl
  | cons x t ih =>
    by_cases hx : x = 0
    · subst hx
      show (if (0 : Nat) = 0 then dropZeros t else 0 :: t) = [] ∨ _
      rw [if_pos rfl]
      exact ih
    · exact Or.inr ⟨x, t, by simp [dropZeros, hx], hx⟩

theorem dropZeros_subset : ∀ (l : List Nat) (e : Nat), e ∈ dropZeros l → e ∈ l := by
  intro l
  induction l with
  | nil => intro e he; exact absurd he (List.not_mem_nil e)
  | cons x t ih =>
    intro e he
    by_cases hx : x = 0
    · subst hx
      rw [show dropZeros (0 :: t) = dropZeros t from rfl] at he
      exact List.mem_cons_of_mem _ (ih e he)
    · rw [show dropZeros (x :: t) = x :: t from by simp [dropZeros, hx]] at he
      exact he

theorem clz_reverse_of_getLast_ne (l : List Nat)
    (h : ∀ hne : l ≠ [], l.getLast hne ≠ 0) :
    countLeadingZeros l.reverse = 0 := by
  cases hr : l.reverse with
  | nil => rfl
  | cons a t =>
    have hne : l ≠ [] := by
      intro h0
      rw [h0] at hr
      exact List.noConfusion hr
    have h1 : l.reverse.head? = some a := by
      rw [hr]
      rfl
    rw [List.head?_reverse, List.getLast?_eq_getLast l hne] at h1
    exact clz_of_head_ne a t (by rw [(Option.some.inj h1).symm]; exact h hne)

/-- Modelled from the spec: the round-trip of the base58btc multibase codec on
arbitrary byte strings. -/
theorem multibase_roundtrip (k : List Nat) (hb : ∀ x ∈ k, x < 256) :
    multibaseDecode (multibaseEncode k) = some k := by
  have hz := replicate_clz_append_dropZeros k
  unfold multibaseEncode
  rw [ofDigitsN_eq, natDigits_eq 58 (by omega : 2 ≤ 58)]
  simp only [multibaseDecode]
  rw [if_pos trivial,
    b58vals_app (countLeadingZeros k) (Nat.digits 58 (Nat.ofDigits 256 k.reverse)).reverse
      (fun d hd => Nat.digits_lt_base (by omega) (List.mem_reverse.mp hd))]
  show some _ = some k
  congr 1
  rw [ofDigitsN_eq, natDigits_eq 256 (by omega : 2 ≤ 256), clz_replicate_append,
    clz_reverse_of_getLast_ne (Nat.digits 58 (Nat.ofDigits 256 k.reverse))
      (fun hne => Nat.getLast_digit_ne_zero 58 (Nat.digits_ne_nil_iff_ne_zero.mp hne)),
    Nat.add_zero]
  rw [List.reverse_append, List.reverse_reverse, List.reverse_replicate,
    ofDigits_append_zeros, Nat.ofDigits_digits]
  have hM : Nat.ofDigits 256 k.reverse = Nat.ofDigits 256 (dropZeros k).reverse := by
    rw [show k.reverse = (dropZeros k).reverse ++ List.replicate (countLeadingZeros k) 0 from
      by conv_lhs => rw [hz, List.reverse_append, List.reverse_replicate]]
    rw [ofDigits_append_zeros]
  rw [hM]
  conv_rhs => rw [hz]
  congr 1
  rcases dropZeros_head k with h1 | ⟨x, t, hxt, hx0⟩
  · rw [h1]
    simp
  · have hmem : ∀ e ∈ (dropZeros k).reverse, e < 256 :=
      fun e he => hb e (dropZeros_subset k e (List.mem_reverse.mp he))
    have hlast : ∀ h2 : (dropZeros k).reverse ≠ [],
        ((dropZeros k).reverse).getLast h2 ≠ 0 := by
      intro h2
      have h3 : ((dropZeros k).reverse).getLast? = some x := by
        rw [List.getLast?_reverse, hxt]
        rfl
      rw [List.getLast?_eq_getLast _ h2] at h3
      rw [Option.some.inj h3]
      exact hx0
    rw [Nat.digits_ofDigits 256 (by omega) _ hmem hlast, List.reverse_reverse]

/-- C9: round-trip of the node identity string form — for every valid 32-byte
public key, parsing the base58-btc multibase encoding of its raw bytes yields the
same key: `PublicKey::from_str(k.to_human()) == Ok(k)`. -/
theorem pubkey_string_roundtrip (k : List Nat) (hlen : k.length = 32)
    (hb : ∀ x ∈ k, x < 256) :
    PublicKey.fromStr (PublicKey.toHuman k) = .ok k := by
  unfold PublicKey.fromStr PublicKey.toHuman
  rw [show (String.mk (multibaseEncode k)).data = multibaseEncode k from rfl,
    multibase_roundtrip k hb]
  simp [hlen]

/-- Witness for `pubkey_string_roundtrip` at the all-zero 32-byte key (whose
encoding is `"z"` followed by 32 `'1'` characters). -/
theorem pubkey_string_roundtrip_witness :
    PublicKey.fromStr (PublicKey.toHuman (List.replicate 32 0)) =
      .ok (List.replicate 32 0) :=
  pubkey_string_roundtrip (List.replicate 32 0) (by decide)
    (fun x hx => by rw [List.eq_of_mem_replicate hx]; omega)

end Radicle
